import Mathlib

/-! # Monotonic queue / stack iterators (`monotonic_iterator.hh`)

Shallow embedding of the two cursor classes of `monotonic_iterator.hh` and of the
loops of `tests/main.cc`.

Modelling conventions.

* An `Iter` is a position: an integer offset from `begin` of the traversed
  `std::vector`. Dereferencing the position `i` reads the cell `rd i` of a storage
  function `rd : Int → T`. For a vector holding the sequence `S`, the storage is
  `vec S d`: cell `i` is `S[i]` for `0 ≤ i < |S|`, every other cell holds `d`, an
  arbitrary value standing for whatever lies outside the vector. Reading such a cell
  is an out-of-bounds read; the `*_reads` functions list the positions an operation
  dereferences.
* `std::deque<T>` and `std::vector<T>` are lists, front (bottom) first.
* `size_t` values are natural numbers. The only subtraction on them, `win_size - 1`,
  is evaluated either under `i < win_size` (no wrap) or as the distance handed to
  `std::advance`, where a wrapped `SIZE_MAX` acts as the distance `-1`; the integer
  expression `↑win_size - 1` gives the same position in both cases.
-/

namespace MonotonicIterator

variable {α : Type}

/-! ## Comparator tags -/

/-- The comparator the `monotonic_decreasing` tag installs: `a > b`. -/
def monotonic_decreasing [LT α] [DecidableRel (fun a b : α => a < b)] : α → α → Bool :=
  fun a b => decide (b < a)

/-- The comparator the `monotonic_increasing` tag installs: `a < b`. -/
def monotonic_increasing [LT α] [DecidableRel (fun a b : α => a < b)] : α → α → Bool :=
  fun a b => decide (a < b)

/-! ## Storage -/

/-- Storage of a vector holding `S`: cell `i` is `S[i]` inside the vector, `d` outside. -/
def vec (S : List α) (d : α) : Int → α :=
  fun i => if i < 0 then d else S.getD i.toNat d

/-! ## Monotonic queue -/

/-- State of `monotonic_queue_iterator<Iter, Comp>`. -/
structure monotonic_queue_iterator (α : Type) where
  /-- The deque, front first. -/
  queue : List α
  /-- The window size. -/
  win_size : Nat
  /-- The position of the window start. -/
  first : Int
  /-- The comparator. -/
  comp : α → α → Bool

/-- One iteration of the constructor loop, on the pair `(it, max_it)`:
`if (comp(*it, *max_it)) max_it = it; if (i < win_size - 1) ++it;`. -/
def monotonic_queue_iterator.scan_step (rd : Int → α) (comp : α → α → Bool) (win_size : Nat)
    (st : Int × Int) (i : Nat) : Int × Int :=
  let max_it := if comp (rd st.1) (rd st.2) then st.1 else st.2
  let it := if i < win_size - 1 then st.1 + 1 else st.1
  (it, max_it)

/-- The constructor loop `for (size_t i = 0; i < win_size; ++i)`, started with
`it = max_it = first`; returns the final `(it, max_it)`. -/
def monotonic_queue_iterator.scan (rd : Int → α) (comp : α → α → Bool) (first : Int)
    (win_size : Nat) : Int × Int :=
  (List.range win_size).foldl (monotonic_queue_iterator.scan_step rd comp win_size) (first, first)

/-- The constructor `monotonic_queue_iterator(first, window_size, comp)`: scan, then
`queue.push_back(*max_it); if (max_it != it) queue.push_back(*it);`. -/
def monotonic_queue_iterator.init (rd : Int → α) (first : Int) (window_size : Nat)
    (comp : α → α → Bool) : monotonic_queue_iterator α :=
  let st := monotonic_queue_iterator.scan rd comp first window_size
  { queue := rd st.2 :: (if st.2 ≠ st.1 then [rd st.1] else [])
    win_size := window_size
    first := first
    comp := comp }

/-- The `operator==` of the queue cursor: `win_size` and `first` agree. -/
def monotonic_queue_iterator.eq (self other : monotonic_queue_iterator α) : Bool :=
  self.win_size == other.win_size && self.first == other.first

/-- The `operator!=` of the queue cursor. -/
def monotonic_queue_iterator.ne (self other : monotonic_queue_iterator α) : Bool :=
  !(monotonic_queue_iterator.eq self other)

/-- The prefix `operator++` of the queue cursor: `it = ++first` moved on by
`win_size - 1`; the elements at the back that are `< *it` are erased; `*it` is pushed. -/
def monotonic_queue_iterator.incr [LT α] [DecidableRel (fun a b : α => a < b)]
    (rd : Int → α) (c : monotonic_queue_iterator α) : monotonic_queue_iterator α :=
  let first := c.first + 1
  let it := first + ((c.win_size : Int) - 1)
  { c with
    queue := c.queue.rdropWhile (fun y => decide (y < rd it)) ++ [rd it]
    first := first }

/-- The `operator*` of the queue cursor. -/
def monotonic_queue_iterator.deref (c : monotonic_queue_iterator α) : List α :=
  c.queue

/-- The pair built by `make_monotonic_queue_iterators(begin, end, window_size, comp)`. -/
def make_monotonic_queue_iterators (rd : Int → α) (begin_ end_ : Int) (window_size : Nat)
    (comp : α → α → Bool) : monotonic_queue_iterator α × monotonic_queue_iterator α :=
  (monotonic_queue_iterator.init rd begin_ window_size comp,
   monotonic_queue_iterator.init rd (end_ - (window_size : Int) + 1) window_size comp)

/-- The loop of `monotonic_queue_test`: `for (auto it = mit; it != mend; ++it)`, collecting
the dereferenced deque of every iteration. `none` when the fuel runs out before the cursor
compares equal to `mend`. -/
def monotonic_queue_test_loop [LT α] [DecidableRel (fun a b : α => a < b)] (rd : Int → α) :
    Nat → monotonic_queue_iterator α → monotonic_queue_iterator α → Option (List (List α))
  | 0, it, mend => if monotonic_queue_iterator.ne it mend then none else some []
  | fuel + 1, it, mend =>
    if monotonic_queue_iterator.ne it mend then
      (monotonic_queue_test_loop rd fuel (monotonic_queue_iterator.incr rd it) mend).map
        (fun rest => monotonic_queue_iterator.deref it :: rest)
    else some []

/-- The cursor constructed at position `0` (`begin`) with window size `k`, after `m`
applications of `operator++`. -/
def queue_at [LT α] [DecidableRel (fun a b : α => a < b)] (rd : Int → α) (k : Nat)
    (comp : α → α → Bool) (m : Nat) : monotonic_queue_iterator α :=
  (monotonic_queue_iterator.incr rd)^[m] (monotonic_queue_iterator.init rd 0 k comp)

/-- The window `S[p .. p+k-1]`. -/
def window (S : List α) (p k : Nat) : List α :=
  (S.drop p).take k

/-! ### Positions dereferenced -/

/-- Positions dereferenced by the constructor loop run over the iterations `is` from the
state `st`: `*it` (printed), then `*it` and `*max_it` (compared), per iteration. -/
def monotonic_queue_iterator.scan_reads (rd : Int → α) (comp : α → α → Bool) (win_size : Nat) :
    List Nat → Int × Int → List Int
  | [], _ => []
  | i :: is, st =>
    st.1 :: st.1 :: st.2 ::
      monotonic_queue_iterator.scan_reads rd comp win_size is
        (monotonic_queue_iterator.scan_step rd comp win_size st i)

/-- Positions dereferenced by the constructor: the loop, then `*max_it`, then `*it` when
`max_it != it`. -/
def monotonic_queue_iterator.init_reads (rd : Int → α) (first : Int) (window_size : Nat)
    (comp : α → α → Bool) : List Int :=
  let st := monotonic_queue_iterator.scan rd comp first window_size
  monotonic_queue_iterator.scan_reads rd comp window_size (List.range window_size) (first, first)
    ++ st.2 :: (if st.2 ≠ st.1 then [st.1] else [])

/-- Position dereferenced by `operator++`: `it`. -/
def monotonic_queue_iterator.incr_reads (c : monotonic_queue_iterator α) : List Int :=
  [c.first + 1 + ((c.win_size : Int) - 1)]

/-- Positions dereferenced by the two constructions of `make_monotonic_queue_iterators`. -/
def make_monotonic_queue_iterators_reads (rd : Int → α) (begin_ end_ : Int) (window_size : Nat)
    (comp : α → α → Bool) : List Int :=
  monotonic_queue_iterator.init_reads rd begin_ window_size comp
    ++ monotonic_queue_iterator.init_reads rd (end_ - (window_size : Int) + 1) window_size comp

/-- Positions dereferenced by the `operator++` calls of the loop of `monotonic_queue_test`. -/
def monotonic_queue_test_loop_reads [LT α] [DecidableRel (fun a b : α => a < b)] (rd : Int → α) :
    Nat → monotonic_queue_iterator α → monotonic_queue_iterator α → List Int
  | 0, _, _ => []
  | fuel + 1, it, mend =>
    if monotonic_queue_iterator.ne it mend then
      monotonic_queue_iterator.incr_reads it
        ++ monotonic_queue_test_loop_reads rd fuel (monotonic_queue_iterator.incr rd it) mend
    else []

/-! ## Monotonic stack -/

/-- State of `monotonic_stack_iterator<Iter, Comp>`. -/
structure monotonic_stack_iterator (α : Type) where
  /-- The comparator. -/
  comp : α → α → Bool
  /-- The stack, bottom first. -/
  data : List α
  /-- The position of the next element to consume. -/
  first : Int

/-- The constructor `monotonic_stack_iterator(first, comp)`: an empty stack. -/
def monotonic_stack_iterator.init (first : Int) (comp : α → α → Bool) :
    monotonic_stack_iterator α :=
  { comp := comp, data := [], first := first }

/-- The prefix `operator++` of the stack cursor: `it = first++`; on an empty stack push
`*it`; otherwise pop while `comp(*it, data.back())`, then push `*it`. -/
def monotonic_stack_iterator.incr (rd : Int → α) (c : monotonic_stack_iterator α) :
    monotonic_stack_iterator α :=
  let it := c.first
  if c.data.isEmpty then
    { c with data := c.data ++ [rd it], first := c.first + 1 }
  else
    { c with
      data := c.data.rdropWhile (fun t => c.comp (rd it) t) ++ [rd it]
      first := c.first + 1 }

/-- The `operator*` of the stack cursor. -/
def monotonic_stack_iterator.deref (c : monotonic_stack_iterator α) : List α :=
  c.data

/-- The stack cursor constructed at position `0` after `m` applications of `operator++`. -/
def stack_at (rd : Int → α) (comp : α → α → Bool) (m : Nat) : monotonic_stack_iterator α :=
  (monotonic_stack_iterator.incr rd)^[m] (monotonic_stack_iterator.init 0 comp)

/-! ### Resolvers

The stack holds values only. To follow the element of a given position through the
stack, the same generic code is run on storage whose cells carry their position next
to their value, with a comparator that looks at the value alone. -/

/-- Storage whose cell `i` is the pair of `i` and `rd i`. -/
def tagged (rd : Int → α) : Int → Int × α :=
  fun i => (i, rd i)

/-- A comparator on values, as a comparator on position-value pairs. -/
def on_value (comp : α → α → Bool) : Int × α → Int × α → Bool :=
  fun a b => comp a.2 b.2

/-- Positions of the elements on the stack after `m` applications of `operator++`. -/
def stack_positions (rd : Int → α) (comp : α → α → Bool) (m : Nat) : List Int :=
  (stack_at (tagged rd) (on_value comp) m).data.map Prod.fst

/-- The element of position `i` is popped by the `operator++` that consumes position `j`:
it is on the stack before that call and not after it. -/
def popped_at (rd : Int → α) (comp : α → α → Bool) (i j : Nat) : Bool :=
  decide ((i : Int) ∈ stack_positions rd comp j) &&
    !decide ((i : Int) ∈ stack_positions rd comp (j + 1))

/-- The resolver of position `i` over the first `n` positions: the position whose
`operator++` pops the element, `none` when no call does. -/
def resolver (rd : Int → α) (comp : α → α → Bool) (n i : Nat) : Option Nat :=
  (List.range n).find? (fun j => popped_at rd comp i j)

/-- Every element of `S` paired with the value of its resolver. -/
def resolutions [LT α] [DecidableRel (fun a b : α => a < b)] (S : List α) (d : α) :
    List (α × Option α) :=
  (List.range S.length).map (fun (i : Nat) =>
    (vec S d (i : Int), (resolver (vec S d) monotonic_decreasing S.length i).map
      (fun (j : Nat) => vec S d (j : Int))))


/-- The comparator contract of the cursors: `comp` is a strict weak ordering (irreflexive,
transitive, with transitive incomparability). -/
def strict_weak_ordering (comp : α → α → Bool) : Prop :=
  (∀ a, comp a a = false) ∧
  (∀ a b c, comp a b = true → comp b c = true → comp a c = true) ∧
  (∀ a b c, comp a b = false → comp b a = false → comp b c = false → comp c b = false →
    comp a c = false ∧ comp c a = false)

/-! ## Test vectors of `tests/main.cc` -/

/-- The vector of `monotonic_queue_test`. -/
def monotonic_queue_test_vec : List Int := [1, 3, 6, 2, 5, 1, 7, 5, 3, 9, 12]

/-- The vector of `monotonic_stack_test`. -/
def monotonic_stack_test_vec : List Int := [50, 30, 10, 5, 3, 1, 20]

/-! ## Operations added for the stack traversal and for dereferencing -/

/-- The `operator==` of the stack cursor: `first` agrees. -/
def monotonic_stack_iterator.eq (self other : monotonic_stack_iterator α) : Bool :=
  self.first == other.first

/-- The `operator!=` of the stack cursor. -/
def monotonic_stack_iterator.ne (self other : monotonic_stack_iterator α) : Bool :=
  !(monotonic_stack_iterator.eq self other)

/-- The pair built by `make_monotonic_stack_iterators(begin, end, comp)`: the end cursor
is constructed at `end + 1`. -/
def make_monotonic_stack_iterators (begin_ end_ : Int) (comp : α → α → Bool) :
    monotonic_stack_iterator α × monotonic_stack_iterator α :=
  (monotonic_stack_iterator.init begin_ comp, monotonic_stack_iterator.init (end_ + 1) comp)

/-- The loop of `monotonic_stack_test`: `for (auto it = mit; it != mend; ++it)`, collecting
the dereferenced stack of every iteration. `none` when the fuel runs out before the cursor
compares equal to `mend`. -/
def monotonic_stack_test_loop (rd : Int → α) :
    Nat → monotonic_stack_iterator α → monotonic_stack_iterator α → Option (List (List α))
  | 0, it, mend => if monotonic_stack_iterator.ne it mend then none else some []
  | fuel + 1, it, mend =>
    if monotonic_stack_iterator.ne it mend then
      (monotonic_stack_test_loop rd fuel (monotonic_stack_iterator.incr rd it) mend).map
        (fun rest => monotonic_stack_iterator.deref it :: rest)
    else some []

/-- Position dereferenced by the stack `operator++`: `it`, the old `first`. -/
def monotonic_stack_iterator.incr_reads (c : monotonic_stack_iterator α) : List Int :=
  [c.first]

/-- Positions dereferenced by the `operator++` calls of the loop of `monotonic_stack_test`,
one per call. -/
def monotonic_stack_test_loop_reads (rd : Int → α) :
    Nat → monotonic_stack_iterator α → monotonic_stack_iterator α → List Int
  | 0, _, _ => []
  | fuel + 1, it, mend =>
    if monotonic_stack_iterator.ne it mend then
      monotonic_stack_iterator.incr_reads it
        ++ monotonic_stack_test_loop_reads rd fuel (monotonic_stack_iterator.incr rd it) mend
    else []

/-- The `operator*` of the queue cursor as a state transformer: the returned deque and
the cursor after the call (`return queue;`). -/
def monotonic_queue_iterator.deref_state (c : monotonic_queue_iterator α) :
    List α × monotonic_queue_iterator α :=
  (c.queue, c)

/-- The `operator*` of the stack cursor as a state transformer: the returned stack and
the cursor after the call (`return data;`). -/
def monotonic_stack_iterator.deref_state (c : monotonic_stack_iterator α) :
    List α × monotonic_stack_iterator α :=
  (c.data, c)

/-! ### Insertions and removals by position

What one call of `operator++` removes and appends, and the positions removed and
appended over a traversal, read off the run on position-tagged cells. -/

/-- Elements erased by one queue `operator++`: `queue.erase(qit.base(), queue.end())`, the
run at the back that is `< *it`. -/
def monotonic_queue_iterator.incr_erased [LT α] [DecidableRel (fun a b : α => a < b)]
    (rd : Int → α) (c : monotonic_queue_iterator α) : List α :=
  c.queue.rtakeWhile (fun y => decide (y < rd (c.first + 1 + ((c.win_size : Int) - 1))))

/-- Element appended by one queue `operator++`: `queue.push_back(*it)`. -/
def monotonic_queue_iterator.incr_pushed (rd : Int → α) (c : monotonic_queue_iterator α) :
    List α :=
  [rd (c.first + 1 + ((c.win_size : Int) - 1))]

/-- Elements popped by one stack `operator++`: the run of tops `t` with `comp(*it, t)`. -/
def monotonic_stack_iterator.incr_popped (rd : Int → α) (c : monotonic_stack_iterator α) :
    List α :=
  c.data.rtakeWhile (fun t => c.comp (rd c.first) t)

/-- Element appended by one stack `operator++`: `data.push_back(*it)`. -/
def monotonic_stack_iterator.incr_pushed (rd : Int → α) (c : monotonic_stack_iterator α) :
    List α :=
  [rd c.first]

/-- The `<` of position-value pairs: the `<` of their values. -/
def value_lt [LT α] : LT (Int × α) :=
  ⟨fun a b => a.2 < b.2⟩

/-- Decision procedure of `value_lt`. -/
def value_lt_dec [LT α] [DecidableRel (fun a b : α => a < b)] :
    DecidableRel (fun a b : Int × α => @LT.lt (Int × α) value_lt a b) :=
  fun a b => inferInstanceAs (Decidable (a.2 < b.2))

/-- The queue `operator++` on position-tagged cells. -/
def tagged_queue_incr [LT α] [DecidableRel (fun a b : α => a < b)] (rd : Int → α)
    (c : monotonic_queue_iterator (Int × α)) : monotonic_queue_iterator (Int × α) :=
  @monotonic_queue_iterator.incr (Int × α) value_lt value_lt_dec (tagged rd) c

/-- The queue cursor on position-tagged cells, constructed at position `0` with window
size `k`, after `m` applications of `operator++`. -/
def tagged_queue_at [LT α] [DecidableRel (fun a b : α => a < b)] (rd : Int → α) (k : Nat)
    (comp : α → α → Bool) (m : Nat) : monotonic_queue_iterator (Int × α) :=
  (tagged_queue_incr rd)^[m] (monotonic_queue_iterator.init (tagged rd) 0 k (on_value comp))

/-- Positions appended to the deque by the constructor and the first `m` calls of
`operator++`, in order. -/
def queue_pushed_positions [LT α] [DecidableRel (fun a b : α => a < b)] (rd : Int → α)
    (k : Nat) (comp : α → α → Bool) : Nat → List Int
  | 0 => (monotonic_queue_iterator.init (tagged rd) 0 k (on_value comp)).queue.map Prod.fst
  | m + 1 =>
    queue_pushed_positions rd k comp m
      ++ (monotonic_queue_iterator.incr_pushed (tagged rd)
            (tagged_queue_at rd k comp m)).map Prod.fst

/-- Positions erased from the deque by the first `m` calls of `operator++`, in order. -/
def queue_erased_positions [LT α] [DecidableRel (fun a b : α => a < b)] (rd : Int → α)
    (k : Nat) (comp : α → α → Bool) : Nat → List Int
  | 0 => []
  | m + 1 =>
    queue_erased_positions rd k comp m
      ++ (@monotonic_queue_iterator.incr_erased (Int × α) value_lt value_lt_dec (tagged rd)
            (tagged_queue_at rd k comp m)).map Prod.fst

/-- Positions appended to the stack by the first `m` calls of `operator++`, in order. -/
def stack_pushed_positions (rd : Int → α) (comp : α → α → Bool) : Nat → List Int
  | 0 => []
  | m + 1 =>
    stack_pushed_positions rd comp m
      ++ (monotonic_stack_iterator.incr_pushed (tagged rd)
            (stack_at (tagged rd) (on_value comp) m)).map Prod.fst

/-- Positions popped from the stack by the first `m` calls of `operator++`, in order. -/
def stack_popped_positions (rd : Int → α) (comp : α → α → Bool) : Nat → List Int
  | 0 => []
  | m + 1 =>
    stack_popped_positions rd comp m
      ++ (monotonic_stack_iterator.incr_popped (tagged rd)
            (stack_at (tagged rd) (on_value comp) m)).map Prod.fst

/-! ## Storage and constructor scan -/

/-- Reading cell `i ≥ 0` of the storage of `S`. -/
theorem vec_natCast (S : List α) (d : α) (i : Nat) : vec S d (i : Int) = S.getD i d := by
  simp [vec]

/-- Inside the vector, the cell read is the element of the sequence. -/
theorem getElem?_eq_some_getD (S : List α) (d : α) (i : Nat) (hi : i < S.length) :
    S[i]? = some (S.getD i d) := by
  rw [List.getElem?_eq_getElem hi, List.getD_eq_getElem _ _ hi]

/-- After `j ≤ k` iterations of the constructor loop, `it` has moved `min j (k - 1)` cells
and `max_it` lies between `first` and `it`. -/
theorem scan_range (rd : Int → α) (comp : α → α → Bool) (first : Int) (k j : Nat) (hj : j ≤ k) :
    ((List.range j).foldl (monotonic_queue_iterator.scan_step rd comp k) (first, first)).1
        = first + (min j (k - 1) : Nat) ∧
      ∃ m : Nat, m ≤ min j (k - 1) ∧
        ((List.range j).foldl (monotonic_queue_iterator.scan_step rd comp k) (first, first)).2
          = first + m := by
  induction j with
  | zero => exact ⟨by simp, 0, by simp, by simp⟩
  | succ j ih =>
    obtain ⟨h1, m, hm, h2⟩ := ih (by omega)
    rw [List.range_succ, List.foldl_append]
    simp only [List.foldl_cons, List.foldl_nil, monotonic_queue_iterator.scan_step]
    rw [h1, h2]
    refine ⟨?_, ?_⟩
    · split_ifs with h
      · have : min (j + 1) (k - 1) = min j (k - 1) + 1 := by omega
        rw [this]; push_cast; ring
      · have : min (j + 1) (k - 1) = min j (k - 1) := by omega
        rw [this]
    · split_ifs with h
      · exact ⟨min j (k - 1), by omega, rfl⟩
      · exact ⟨m, by omega, rfl⟩

/-- With the decreasing comparator, `max_it` holds a value that is at least every value
scanned so far. -/
theorem scan_range_decreasing [LinearOrder α] (rd : Int → α) (first : Int) (k j : Nat)
    (hj : j ≤ k) (i : Nat) (hi : i < j) :
    rd (first + i) ≤ rd ((List.range j).foldl
      (monotonic_queue_iterator.scan_step rd monotonic_decreasing k) (first, first)).2 := by
  induction j with
  | zero => omega
  | succ j ih =>
    obtain ⟨h1, -⟩ := scan_range rd monotonic_decreasing first k j (by omega)
    have hmin : min j (k - 1) = j := by omega
    rw [hmin] at h1
    rw [List.range_succ, List.foldl_append]
    simp only [List.foldl_cons, List.foldl_nil, monotonic_queue_iterator.scan_step,
      monotonic_decreasing, decide_eq_true_eq]
    rw [h1]
    rcases Nat.lt_succ_iff_lt_or_eq.mp hi with h | h
    · have := ih (by omega) h
      split_ifs with hlt
      · exact le_trans this (le_of_lt hlt)
      · exact this
    · subst h
      split_ifs with hlt
      · exact le_rfl
      · exact not_lt.mp hlt

theorem init_queue_sorted [LinearOrder α] (rd : Int → α) (first : Int) (k : Nat) :
    List.Pairwise (fun a b => b ≤ a)
      (monotonic_queue_iterator.init rd first k monotonic_decreasing).queue := by
  simp only [monotonic_queue_iterator.init, monotonic_queue_iterator.scan]
  split_ifs with h
  · rcases Nat.eq_zero_or_pos k with hk | hk
    · subst hk; simp at h
    · obtain ⟨h1, -⟩ := scan_range rd monotonic_decreasing first k k le_rfl
      have hmin : min k (k - 1) = k - 1 := by omega
      rw [hmin] at h1
      have := scan_range_decreasing rd first k k le_rfl (k - 1) (by omega)
      rw [h1]
      simpa using this
  · simp

theorem rdropWhile_push_sorted [LinearOrder α] (x : α) (q : List α)
    (hq : List.Pairwise (fun a b => b ≤ a) q) :
    List.Pairwise (fun a b => b ≤ a) (q.rdropWhile (fun y => decide (y < x)) ++ [x]) := by
  rw [List.pairwise_append]
  refine ⟨hq.sublist (List.rdropWhile_prefix _ _).sublist, List.pairwise_singleton _ _, ?_⟩
  intro a ha b hb
  simp only [List.mem_singleton] at hb
  subst hb
  induction q using List.reverseRecOn with
  | nil => simp at ha
  | append_singleton l y ih =>
    rw [List.rdropWhile_concat] at ha
    rw [List.pairwise_append] at hq
    split_ifs at ha with hy
    · exact ih hq.1 ha
    · have hy2 : b ≤ y := by simpa using hy
      rcases List.mem_append.mp ha with h | h
      · exact le_trans hy2 (hq.2.2 a h y (by simp))
      · simp only [List.mem_singleton] at h
        rw [h]; exact hy2

theorem queue_at_succ [LT α] [DecidableRel (fun a b : α => a < b)] (rd : Int → α) (k : Nat)
    (comp : α → α → Bool) (m : Nat) :
    queue_at rd k comp (m + 1) = monotonic_queue_iterator.incr rd (queue_at rd k comp m) := by
  simp only [queue_at, Function.iterate_succ_apply']

/-- With the decreasing comparator the deque is non-increasing after any number of calls. -/
theorem queue_at_sorted [LinearOrder α] (rd : Int → α) (k m : Nat) :
    List.Pairwise (fun a b => b ≤ a) (queue_at rd k monotonic_decreasing m).queue := by
  induction m with
  | zero => exact init_queue_sorted rd 0 k
  | succ m ih =>
    rw [queue_at_succ]
    exact rdropWhile_push_sorted _ _ ih

theorem queue_at_first [LT α] [DecidableRel (fun a b : α => a < b)] (rd : Int → α) (k : Nat)
    (comp : α → α → Bool) (m : Nat) :
    (queue_at rd k comp m).first = m ∧ (queue_at rd k comp m).win_size = k := by
  induction m with
  | zero => simp [queue_at, monotonic_queue_iterator.init]
  | succ m ih =>
    rw [queue_at_succ]
    simp only [monotonic_queue_iterator.incr, ih.1, ih.2]
    exact ⟨by push_cast; ring, trivial⟩

/-! ## Traversal loop -/

theorem queue_incr_iterate_first [LT α] [DecidableRel (fun a b : α => a < b)] (rd : Int → α)
    (c : monotonic_queue_iterator α) (m : Nat) :
    ((monotonic_queue_iterator.incr rd)^[m] c).first = c.first + m ∧
      ((monotonic_queue_iterator.incr rd)^[m] c).win_size = c.win_size := by
  induction m with
  | zero => simp
  | succ m ih =>
    rw [Function.iterate_succ_apply']
    simp only [monotonic_queue_iterator.incr, ih.1, ih.2]
    exact ⟨by push_cast; ring, trivial⟩

/-- The loop of `monotonic_queue_test` ends after `r` outputs when the end cursor has the
same window size and sits `r` positions ahead, given fuel of at least `r`. -/
theorem queue_test_loop_run [LT α] [DecidableRel (fun a b : α => a < b)] (rd : Int → α)
    (r : Nat) : ∀ (fuel : Nat) (it mend : monotonic_queue_iterator α), r ≤ fuel →
      it.win_size = mend.win_size → mend.first = it.first + r →
      monotonic_queue_test_loop rd fuel it mend
        = some ((List.range r).map
            (fun p => ((monotonic_queue_iterator.incr rd)^[p] it).deref)) := by
  induction r with
  | zero =>
    intro fuel it mend _ hw hf
    have hne : monotonic_queue_iterator.ne it mend = false := by
      simp [monotonic_queue_iterator.ne, monotonic_queue_iterator.eq, hw, hf]
    cases fuel <;> simp [monotonic_queue_test_loop, hne]
  | succ r ih =>
    intro fuel it mend hfuel hw hf
    have hne : monotonic_queue_iterator.ne it mend = true := by
      simp only [monotonic_queue_iterator.ne, monotonic_queue_iterator.eq, hw, hf]
      simp
      omega
    cases fuel with
    | zero => omega
    | succ f =>
      have hstep := ih f (monotonic_queue_iterator.incr rd it) mend (by omega)
        (by simpa [monotonic_queue_iterator.incr] using hw)
        (by simp only [monotonic_queue_iterator.incr, hf]; push_cast; ring)
      simp only [monotonic_queue_test_loop, hne, if_true, hstep, Option.map_some']
      rw [List.range_succ_eq_map]
      simp [Function.iterate_succ_apply, Function.comp_def]

/-! ## Stack -/

/-- Negative transitivity of a strict weak ordering. -/
theorem strict_weak_ordering_neg_trans {comp : α → α → Bool} (h : strict_weak_ordering comp)
    {x t a : α} (hxt : comp x t = false) (hta : comp t a = false) : comp x a = false := by
  obtain ⟨-, htr, hinc⟩ := h
  by_contra hxa
  have hxa : comp x a = true := by simpa using hxa
  have h1 : comp t x = false := by
    by_contra h1
    have h1 : comp t x = true := by simpa using h1
    rw [htr t x a h1 hxa] at hta
    exact Bool.noConfusion hta
  have h2 : comp a t = false := by
    by_contra h2
    have h2 : comp a t = true := by simpa using h2
    rw [htr x a t hxa h2] at hxt
    exact Bool.noConfusion hxt
  have := (hinc x t a hxt h1 hta h2).1
  rw [hxa] at this
  exact Bool.noConfusion this

theorem decreasing_strict_weak_ordering [LinearOrder α] :
    strict_weak_ordering (monotonic_decreasing : α → α → Bool) := by
  refine ⟨?_, ?_, ?_⟩
  · intro a; simp [monotonic_decreasing]
  · intro a b c; simp only [monotonic_decreasing, decide_eq_true_eq]
    intro h1 h2; exact lt_trans h2 h1
  · intro a b c; simp only [monotonic_decreasing, decide_eq_false_iff_not, not_lt]
    intro h1 h2 h3 h4
    exact ⟨le_trans h1 h3, le_trans h4 h2⟩

theorem increasing_strict_weak_ordering [LinearOrder α] :
    strict_weak_ordering (monotonic_increasing : α → α → Bool) := by
  refine ⟨?_, ?_, ?_⟩
  · intro a; simp [monotonic_increasing]
  · intro a b c; simp only [monotonic_increasing, decide_eq_true_eq]
    intro h1 h2; exact lt_trans h1 h2
  · intro a b c; simp only [monotonic_increasing, decide_eq_false_iff_not, not_lt]
    intro h1 h2 h3 h4
    exact ⟨le_trans h3 h1, le_trans h2 h4⟩

/-- Both branches of the stack `operator++` pop the maximal run of tops `t` with
`comp(*it, t)` and push `*it`. -/
theorem stack_incr_data (rd : Int → α) (c : monotonic_stack_iterator α) :
    (monotonic_stack_iterator.incr rd c).data
        = c.data.rdropWhile (fun t => c.comp (rd c.first) t) ++ [rd c.first] ∧
      (monotonic_stack_iterator.incr rd c).comp = c.comp ∧
      (monotonic_stack_iterator.incr rd c).first = c.first + 1 := by
  unfold monotonic_stack_iterator.incr
  by_cases h : c.data.isEmpty
  · have h0 : c.data = [] := by simpa using h
    simp [h0]
  · simp [h]

theorem stack_at_succ (rd : Int → α) (comp : α → α → Bool) (m : Nat) :
    stack_at rd comp (m + 1) = monotonic_stack_iterator.incr rd (stack_at rd comp m) := by
  simp only [stack_at, Function.iterate_succ_apply']

theorem rdropWhile_push_monotone {comp : α → α → Bool} (h : strict_weak_ordering comp)
    (x : α) (l : List α) (hl : List.Pairwise (fun a b => comp b a = false) l) :
    List.Pairwise (fun a b => comp b a = false) (l.rdropWhile (fun t => comp x t) ++ [x]) := by
  rw [List.pairwise_append]
  refine ⟨hl.sublist (List.rdropWhile_prefix _ _).sublist, List.pairwise_singleton _ _, ?_⟩
  intro a ha b hb
  simp only [List.mem_singleton] at hb
  subst hb
  induction l using List.reverseRecOn with
  | nil => simp at ha
  | append_singleton l y ih =>
    rw [List.rdropWhile_concat] at ha
    rw [List.pairwise_append] at hl
    split_ifs at ha with hy
    · exact ih hl.1 ha
    · have hy2 : comp b y = false := by simpa using hy
      rcases List.mem_append.mp ha with h1 | h1
      · exact strict_weak_ordering_neg_trans h hy2 (hl.2.2 a h1 y (by simp))
      · simp only [List.mem_singleton] at h1
        rw [h1]; exact hy2

theorem stack_iterate_monotone {comp : α → α → Bool} (h : strict_weak_ordering comp)
    (rd : Int → α) (first : Int) (m : Nat) :
    ((monotonic_stack_iterator.incr rd)^[m] (monotonic_stack_iterator.init first comp)).comp
        = comp ∧
      List.Pairwise (fun a b => comp b a = false)
        ((monotonic_stack_iterator.incr rd)^[m]
          (monotonic_stack_iterator.init first comp)).data := by
  induction m with
  | zero => simp [monotonic_stack_iterator.init]
  | succ m ih =>
    rw [Function.iterate_succ_apply']
    obtain ⟨hd, hc, -⟩ := stack_incr_data rd
      ((monotonic_stack_iterator.incr rd)^[m] (monotonic_stack_iterator.init first comp))
    rw [hd, hc, ih.1]
    exact ⟨rfl, rdropWhile_push_monotone h _ _ ih.2⟩

theorem rdropWhile_map {β : Type} (f : α → β) (p : β → Bool) (l : List α) :
    (l.map f).rdropWhile p = (l.rdropWhile (fun a => p (f a))).map f := by
  simp only [List.rdropWhile, ← List.map_reverse, List.dropWhile_map, Function.comp_def]

theorem rdropWhile_eq_filter (p : α → Bool) (l : List α)
    (hl : List.Pairwise (fun a b => p a = true → p b = true) l) :
    l.rdropWhile p = l.filter (fun a => !p a) := by
  induction l using List.reverseRecOn with
  | nil => simp
  | append_singleton l y ih =>
    rw [List.pairwise_append] at hl
    rw [List.rdropWhile_concat, List.filter_append]
    by_cases hy : p y = true
    · simp [hy, ih hl.1]
    · have hall : ∀ a ∈ l, (!p a) = true := by
        intro a ha
        by_contra hc
        have hpa : p a = true := by simpa using hc
        exact hy (hl.2.2 a ha y (by simp) hpa)
      simp [hy, List.filter_eq_self.mpr hall]

/-- Tagging the cells with their positions does not change the run: the values of the
tagged stack are the stack of the untagged run. -/
theorem stack_at_tagged_values (rd : Int → α) (comp : α → α → Bool) (m : Nat) :
    (stack_at (tagged rd) (on_value comp) m).data.map Prod.snd = (stack_at rd comp m).data ∧
      (stack_at (tagged rd) (on_value comp) m).first = (stack_at rd comp m).first ∧
      (stack_at (tagged rd) (on_value comp) m).comp = on_value comp ∧
      (stack_at rd comp m).comp = comp := by
  induction m with
  | zero => simp [stack_at, monotonic_stack_iterator.init]
  | succ m ih =>
    obtain ⟨h1, h2, h3, h4⟩ := ih
    rw [stack_at_succ, stack_at_succ]
    obtain ⟨hd, hc, hf⟩ := stack_incr_data (tagged rd) (stack_at (tagged rd) (on_value comp) m)
    obtain ⟨hd2, hc2, hf2⟩ := stack_incr_data rd (stack_at rd comp m)
    rw [hd, hc, hf, hd2, hc2, hf2, h3, h4, h2, ← h1]
    refine ⟨?_, rfl, rfl, rfl⟩
    rw [rdropWhile_map]
    simp [on_value, tagged]

/-- With the decreasing comparator, after `m` calls the stack holds exactly the positions
`i < m` such that no position strictly between `i` and `m` holds a greater value. -/
theorem stack_at_tagged_data [LinearOrder α] (rd : Int → α) (m : Nat) :
    (stack_at (tagged rd) (on_value monotonic_decreasing) m).data
        = ((List.range m).filter
            (fun i => decide (∀ l, l < m → i < l → ¬ rd (i : Int) < rd (l : Int)))).map
            (fun i : Nat => ((i : Int), rd (i : Int))) ∧
      (stack_at (tagged rd) (on_value monotonic_decreasing) m).first = m ∧
      (stack_at (tagged rd) (on_value monotonic_decreasing) m).comp
        = on_value monotonic_decreasing := by
  induction m with
  | zero => simp [stack_at, monotonic_stack_iterator.init]
  | succ m ih =>
    obtain ⟨h1, h2, h3⟩ := ih
    rw [stack_at_succ]
    obtain ⟨hd, hc, hf⟩ := stack_incr_data (tagged rd)
      (stack_at (tagged rd) (on_value monotonic_decreasing) m)
    rw [hd, hc, hf, h1, h2, h3]
    refine ⟨?_, by push_cast; ring, rfl⟩
    rw [rdropWhile_map]
    have hpw : List.Pairwise
        (fun a b : Nat => on_value monotonic_decreasing (tagged rd (m : Int))
            ((a : Int), rd (a : Int)) = true →
          on_value monotonic_decreasing (tagged rd (m : Int)) ((b : Int), rd (b : Int)) = true)
        ((List.range m).filter
          (fun i => decide (∀ l, l < m → i < l → ¬ rd (i : Int) < rd (l : Int)))) := by
      refine List.Pairwise.imp_of_mem ?_
        ((List.pairwise_lt_range m).sublist (List.filter_sublist _))
      intro a b ha hb hab
      simp only [List.mem_filter, List.mem_range, decide_eq_true_eq] at ha hb
      simp only [on_value, tagged, monotonic_decreasing, decide_eq_true_eq]
      intro hlt
      exact lt_of_le_of_lt (not_lt.mp (ha.2 b hb.1 hab)) hlt
    rw [rdropWhile_eq_filter _ _ hpw, List.filter_filter, List.range_succ, List.filter_append,
      List.map_append]
    congr 1
    · congr 1
      apply List.filter_congr
      intro i hi
      simp only [List.mem_range] at hi
      rw [Bool.eq_iff_iff]
      simp only [on_value, tagged, monotonic_decreasing, Bool.and_eq_true, Bool.not_eq_true',
        decide_eq_false_iff_not, decide_eq_true_eq]
      constructor
      · rintro ⟨hm, hall⟩ l hl hil
        rcases Nat.lt_succ_iff_lt_or_eq.mp hl with h | h
        · exact hall l h hil
        · subst h; exact hm
      · intro hall
        exact ⟨hall m (by omega) hi, fun l hl hil => hall l (by omega) hil⟩
    · rw [List.filter_cons_of_pos (by rw [decide_eq_true_eq]; intro l hl hml; omega)]
      simp [tagged]

theorem mem_stack_positions [LinearOrder α] (rd : Int → α) (m i : Nat) :
    (i : Int) ∈ stack_positions rd monotonic_decreasing m ↔
      i < m ∧ ∀ l, l < m → i < l → ¬ rd (i : Int) < rd (l : Int) := by
  simp only [stack_positions, (stack_at_tagged_data rd m).1, List.map_map, List.mem_map,
    List.mem_filter, List.mem_range, decide_eq_true_eq, Function.comp_def]
  constructor
  · rintro ⟨a, ha, hai⟩
    have : a = i := by exact_mod_cast hai
    subst this
    exact ha
  · intro h
    exact ⟨i, h, rfl⟩

/-- With the decreasing comparator, position `i` is popped when position `j` is consumed
exactly when `j` is the first later position holding a greater value. -/
theorem popped_at_iff [LinearOrder α] (rd : Int → α) (i j : Nat) :
    popped_at rd monotonic_decreasing i j = true ↔
      i < j ∧ rd (i : Int) < rd (j : Int) ∧
        ∀ l, i < l → l < j → ¬ rd (i : Int) < rd (l : Int) := by
  simp only [popped_at, Bool.and_eq_true, Bool.not_eq_true', decide_eq_true_eq,
    decide_eq_false_iff_not, mem_stack_positions]
  constructor
  · rintro ⟨⟨hij, hall⟩, hnot⟩
    refine ⟨hij, ?_, fun l hil hlj => hall l hlj hil⟩
    by_contra hc
    apply hnot
    refine ⟨by omega, fun l hl hil => ?_⟩
    rcases Nat.lt_succ_iff_lt_or_eq.mp hl with h | h
    · exact hall l h hil
    · subst h; exact hc
  · rintro ⟨hij, hlt, hall⟩
    refine ⟨⟨hij, fun l hlj hil => hall l hil hlj⟩, ?_⟩
    rintro ⟨-, hall2⟩
    exact hall2 j (by omega) hij hlt

/-! ## Cells an operation depends on -/

theorem vec_congr (S : List α) (d e : α) (i : Nat) (hi : i < S.length) :
    vec S d (i : Int) = vec S e (i : Int) := by
  rw [vec_natCast, vec_natCast, List.getD_eq_getElem _ _ hi, List.getD_eq_getElem _ _ hi]

theorem scan_congr (rd rd2 : Int → α) (comp : α → α → Bool) (first : Int) (k j : Nat)
    (hj : j ≤ k) (h : ∀ i : Nat, i < k → rd (first + i) = rd2 (first + i)) :
    (List.range j).foldl (monotonic_queue_iterator.scan_step rd comp k) (first, first)
      = (List.range j).foldl (monotonic_queue_iterator.scan_step rd2 comp k) (first, first) := by
  induction j with
  | zero => rfl
  | succ j ih =>
    obtain ⟨h1, m, hm, h2⟩ := scan_range rd2 comp first k j (by omega)
    rw [List.range_succ, List.foldl_append, List.foldl_append, ih (by omega)]
    simp only [List.foldl_cons, List.foldl_nil, monotonic_queue_iterator.scan_step]
    rw [h1, h2, h _ (by omega), h m (by omega)]

theorem init_congr (rd rd2 : Int → α) (comp : α → α → Bool) (first : Int) (k : Nat)
    (hk : 1 ≤ k) (h : ∀ i : Nat, i < k → rd (first + i) = rd2 (first + i)) :
    monotonic_queue_iterator.init rd first k comp
      = monotonic_queue_iterator.init rd2 first k comp := by
  obtain ⟨h1, m, hm, h2⟩ := scan_range rd2 comp first k k le_rfl
  simp only [monotonic_queue_iterator.init, monotonic_queue_iterator.scan,
    scan_congr rd rd2 comp first k k le_rfl h]
  rw [h1, h2, h m (by omega), h (min k (k - 1)) (by omega)]

/-- The queue cursor after `m` calls depends on the cells `0 .. m + k - 1` only. -/
theorem queue_at_congr [LT α] [DecidableRel (fun a b : α => a < b)] (rd rd2 : Int → α)
    (comp : α → α → Bool) (k m : Nat) (hk : 1 ≤ k)
    (h : ∀ i : Nat, i < m + k → rd (i : Int) = rd2 (i : Int)) :
    queue_at rd k comp m = queue_at rd2 k comp m := by
  induction m with
  | zero =>
    simp only [queue_at, Function.iterate_zero, id_eq]
    exact init_congr rd rd2 comp 0 k hk (fun i hi => by simpa using h i (by omega))
  | succ m ih =>
    rw [queue_at_succ, queue_at_succ, ih (fun i hi => h i (by omega))]
    obtain ⟨hf, hw⟩ := queue_at_first rd2 k comp m
    have hcell : (queue_at rd2 k comp m).first + 1 + (((queue_at rd2 k comp m).win_size : Int) - 1)
        = ((m + k : Nat) : Int) := by
      rw [hf, hw]; push_cast; ring
    simp only [monotonic_queue_iterator.incr, hcell, h (m + k) (by omega)]

theorem stack_at_first (rd : Int → α) (comp : α → α → Bool) (m : Nat) :
    (stack_at rd comp m).first = m := by
  induction m with
  | zero => simp [stack_at, monotonic_stack_iterator.init]
  | succ m ih =>
    rw [stack_at_succ, (stack_incr_data rd _).2.2, ih]
    push_cast; ring

/-- The stack cursor after `m` calls depends on the cells `0 .. m - 1` only. -/
theorem stack_at_congr (rd rd2 : Int → α) (comp : α → α → Bool) (m : Nat)
    (h : ∀ i : Nat, i < m → rd (i : Int) = rd2 (i : Int)) :
    stack_at rd comp m = stack_at rd2 comp m := by
  induction m with
  | zero => rfl
  | succ m ih =>
    rw [stack_at_succ, stack_at_succ, ih (fun i hi => h i (by omega))]
    simp only [monotonic_stack_iterator.incr, stack_at_first, h m (by omega)]

theorem popped_at_congr (rd rd2 : Int → α) (comp : α → α → Bool) (i j : Nat)
    (h : ∀ l : Nat, l < j + 1 → rd (l : Int) = rd2 (l : Int)) :
    popped_at rd comp i j = popped_at rd2 comp i j := by
  have ht : ∀ l : Nat, l < j + 1 → tagged rd (l : Int) = tagged rd2 (l : Int) := by
    intro l hl; simp only [tagged, h l hl]
  simp only [popped_at, stack_positions,
    stack_at_congr (tagged rd) (tagged rd2) (on_value comp) (j + 1) ht,
    stack_at_congr (tagged rd) (tagged rd2) (on_value comp) j (fun l hl => ht l (by omega))]

theorem find_congr_mem {β : Type} (p q : β → Bool) (l : List β) (h : ∀ x ∈ l, p x = q x) :
    l.find? p = l.find? q := by
  induction l with
  | nil => rfl
  | cons a t ih =>
    simp only [List.find?_cons, h a (by simp)]
    rw [ih (fun x hx => h x (by simp [hx]))]

/-- The resolutions over `S` do not depend on what lies outside the vector. -/
theorem resolutions_congr [LT α] [DecidableRel (fun a b : α => a < b)] (S : List α) (d e : α) :
    resolutions S d = resolutions S e := by
  unfold resolutions
  apply List.map_congr_left
  intro i hi
  simp only [List.mem_range] at hi
  have hres : resolver (vec S d) monotonic_decreasing S.length i
      = resolver (vec S e) monotonic_decreasing S.length i := by
    unfold resolver
    apply find_congr_mem
    intro j hj
    simp only [List.mem_range] at hj
    exact popped_at_congr _ _ _ i j (fun l hl => vec_congr S d e l (by omega))
  rw [hres, vec_congr S d e i hi]
  congr 1
  cases hr : resolver (vec S e) monotonic_decreasing S.length i with
  | none => rfl
  | some j =>
    have hj := List.find?_some hr
    have hmem := List.mem_of_find?_eq_some hr
    simp only [List.mem_range] at hmem
    simp only [Option.map_some', vec_congr S d e j hmem]

/-! ## Positions read by the constructor -/

theorem scan_reads_append (rd : Int → α) (comp : α → α → Bool) (k : Nat) (l1 l2 : List Nat) :
    ∀ st : Int × Int,
      monotonic_queue_iterator.scan_reads rd comp k (l1 ++ l2) st
        = monotonic_queue_iterator.scan_reads rd comp k l1 st
          ++ monotonic_queue_iterator.scan_reads rd comp k l2
              (l1.foldl (monotonic_queue_iterator.scan_step rd comp k) st) := by
  induction l1 with
  | nil => intro st; rfl
  | cons i t ih =>
    intro st
    simp [monotonic_queue_iterator.scan_reads, ih]

theorem init_reads_last (rd : Int → α) (comp : α → α → Bool) (first : Int) (k : Nat)
    (hk : 1 ≤ k) :
    first + ((k - 1 : Nat) : Int) ∈ monotonic_queue_iterator.init_reads rd first k comp := by
  obtain ⟨h1, -⟩ := scan_range rd comp first k (k - 1) (by omega)
  have hmin : min (k - 1) (k - 1) = k - 1 := by omega
  rw [hmin] at h1
  have hr : List.range k = List.range (k - 1) ++ [k - 1] := by
    rw [← List.range_succ]; congr 1; omega
  unfold monotonic_queue_iterator.init_reads
  rw [hr, scan_reads_append]
  simp only [monotonic_queue_iterator.scan_reads, h1]
  simp

/-- For every sequence and window size `k ≥ 1`, the construction of the end cursor by
`make_monotonic_queue_iterators` dereferences position `|S|`. -/
theorem make_reads_past_end (S : List α) (d : α) (k : Nat) (comp : α → α → Bool) (hk : 1 ≤ k) :
    (S.length : Int) ∈
      make_monotonic_queue_iterators_reads (vec S d) 0 (S.length : Int) k comp := by
  unfold make_monotonic_queue_iterators_reads
  apply List.mem_append_right
  have := init_reads_last (vec S d) comp ((S.length : Int) - (k : Int) + 1) k hk
  have hpos : (S.length : Int) - (k : Int) + 1 + ((k - 1 : Nat) : Int) = (S.length : Int) := by
    omega
  rw [hpos] at this
  exact this

theorem popped_at_unique [LinearOrder α] (rd : Int → α) (i j j2 : Nat)
    (h1 : popped_at rd monotonic_decreasing i j = true)
    (h2 : popped_at rd monotonic_decreasing i j2 = true) : j = j2 := by
  rw [popped_at_iff] at h1 h2
  obtain ⟨a1, b1, c1⟩ := h1
  obtain ⟨a2, b2, c2⟩ := h2
  rcases Nat.lt_trichotomy j j2 with h | h | h
  · exact absurd b1 (c2 j a1 h)
  · exact h
  · exact absurd b2 (c1 j2 a2 h)

theorem resolver_eq_some_iff [LinearOrder α] (rd : Int → α) (n i j : Nat) :
    resolver rd monotonic_decreasing n i = some j ↔
      j < n ∧ popped_at rd monotonic_decreasing i j = true := by
  unfold resolver
  constructor
  · intro h
    exact ⟨List.mem_range.mp (List.mem_of_find?_eq_some h), List.find?_some h⟩
  · rintro ⟨hj, hp⟩
    cases hr : (List.range n).find? (fun j => popped_at rd monotonic_decreasing i j) with
    | none =>
      rw [List.find?_eq_none] at hr
      exact absurd hp (hr j (List.mem_range.mpr hj))
    | some j2 =>
      rw [popped_at_unique rd i j j2 hp (List.find?_some hr)]

/-- With the decreasing comparator the stack is non-increasing from bottom to top. -/
theorem stack_pairwise_decreasing [LinearOrder α] (rd : Int → α) (first : Int) (m : Nat) :
    List.Pairwise (fun a b => b ≤ a)
      ((monotonic_stack_iterator.incr rd)^[m]
        (monotonic_stack_iterator.init first monotonic_decreasing)).deref := by
  refine (stack_iterate_monotone decreasing_strict_weak_ordering rd first m).2.imp ?_
  intro a b h
  simpa [monotonic_decreasing] using h

/-- With the increasing comparator the stack is non-decreasing from bottom to top. -/
theorem stack_pairwise_increasing [LinearOrder α] (rd : Int → α) (first : Int) (m : Nat) :
    List.Pairwise (fun a b => a ≤ b)
      ((monotonic_stack_iterator.incr rd)^[m]
        (monotonic_stack_iterator.init first monotonic_increasing)).deref := by
  refine (stack_iterate_monotone increasing_strict_weak_ordering rd first m).2.imp ?_
  intro a b h
  simpa [monotonic_increasing] using h

/-! ## Claims -/

/-- C1, evaluated where the code departs from it: on `[5, 1, 1]` with window size 2 and
the decreasing comparator, one `operator++` puts the cursor at position 1, whose window
is `[1, 1]` with maximum 1, while the front of the dereferenced deque is still 5, the
element that left the window; `operator++` never removes the front. -/
theorem queue_front_outside_window :
    (queue_at (vec ([5, 1, 1] : List Int) 0) 2 monotonic_decreasing 1).first = 1 ∧
      (queue_at (vec ([5, 1, 1] : List Int) 0) 2 monotonic_decreasing 1).deref = [5, 1, 1] ∧
      (queue_at (vec ([5, 1, 1] : List Int) 0) 2 monotonic_decreasing 1).deref.head? = some 5 ∧
      window ([5, 1, 1] : List Int) 1 2 = [1, 1] ∧
      (window ([5, 1, 1] : List Int) 1 2).max? = some 1 := by
  decide

/-- C2, evaluated where the code departs from it: on `[3, 1, 2]` with window size 2 and
the increasing comparator, the constructor keeps `[1]`, and one `operator++` evicts that
1 because `1 < 2` and leaves `[2]`: the front is 2 while the window `[1, 2]` has
minimum 1. The eviction loop of `operator++` compares with `<` and not with `comp`. -/
theorem queue_increasing_front_not_min :
    (queue_at (vec ([3, 1, 2] : List Int) 0) 2 monotonic_increasing 0).deref = [1] ∧
      (queue_at (vec ([3, 1, 2] : List Int) 0) 2 monotonic_increasing 1).first = 1 ∧
      (queue_at (vec ([3, 1, 2] : List Int) 0) 2 monotonic_increasing 1).deref = [2] ∧
      window ([3, 1, 2] : List Int) 1 2 = [1, 2] ∧
      (window ([3, 1, 2] : List Int) 1 2).min? = some 1 := by
  decide

/-- C3: for the stack cursor with the decreasing comparator over a sequence `S`, the
element of position `i` is popped by the `operator++` that consumes position `j` exactly
when `j` is the first position after `i` holding a greater value, and that `j` is its
resolver; when no later position holds a greater value the element is popped by no call,
is on the stack after all `|S|` elements have been consumed, and has no resolver. -/
theorem stack_resolver_is_next_greater [LinearOrder α] (S : List α) (d : α) (i j : Nat)
    (hi : i < S.length) (hj : j < S.length) :
    (popped_at (vec S d) monotonic_decreasing i j = true ↔
        i < j ∧ S.getD i d < S.getD j d ∧
          ∀ l, l < j → i < l → ¬ S.getD i d < S.getD l d) ∧
      (resolver (vec S d) monotonic_decreasing S.length i = some j ↔
        i < j ∧ S.getD i d < S.getD j d ∧
          ∀ l, l < j → i < l → ¬ S.getD i d < S.getD l d) ∧
      ((∀ l, l < S.length → i < l → ¬ S.getD i d < S.getD l d) →
        (∀ j2, j2 < S.length → popped_at (vec S d) monotonic_decreasing i j2 = false) ∧
          (i : Int) ∈ stack_positions (vec S d) monotonic_decreasing S.length ∧
          resolver (vec S d) monotonic_decreasing S.length i = none) := by
  have hiff : popped_at (vec S d) monotonic_decreasing i j = true ↔
      i < j ∧ S.getD i d < S.getD j d ∧
        ∀ l, l < j → i < l → ¬ S.getD i d < S.getD l d := by
    rw [popped_at_iff]
    simp only [vec_natCast]
    exact ⟨fun ⟨a, b, c⟩ => ⟨a, b, fun l h1 h2 => c l h2 h1⟩,
      fun ⟨a, b, c⟩ => ⟨a, b, fun l h1 h2 => c l h2 h1⟩⟩
  refine ⟨hiff, ?_, ?_⟩
  · rw [resolver_eq_some_iff, ← hiff]
    exact ⟨fun h => h.2, fun h => ⟨hj, h⟩⟩
  · intro hnone
    have hnot : ∀ j2, j2 < S.length → popped_at (vec S d) monotonic_decreasing i j2 = false := by
      intro j2 hj2
      by_contra hc
      have hc : popped_at (vec S d) monotonic_decreasing i j2 = true := by simpa using hc
      rw [popped_at_iff] at hc
      simp only [vec_natCast] at hc
      exact hnone j2 hj2 hc.1 hc.2.1
    refine ⟨hnot, ?_, ?_⟩
    · rw [mem_stack_positions]
      simp only [vec_natCast]
      exact ⟨hi, hnone⟩
    · unfold resolver
      rw [List.find?_eq_none]
      intro j2 hj2
      simp [hnot j2 (List.mem_range.mp hj2)]

/-- Witness of C3 on the vector of `monotonic_stack_test`: the element 10 of position 2
is popped when position 6, holding 20, is consumed. -/
theorem stack_resolver_is_next_greater_witness :
    (2 < monotonic_stack_test_vec.length ∧ 6 < monotonic_stack_test_vec.length) ∧
      popped_at (vec monotonic_stack_test_vec 0) monotonic_decreasing 2 6 = true ∧
      resolver (vec monotonic_stack_test_vec 0) monotonic_decreasing
        monotonic_stack_test_vec.length 2 = some 6 :=
  ⟨by decide,
    (stack_resolver_is_next_greater monotonic_stack_test_vec 0 2 6 (by decide) (by decide)).1.mpr
      (by decide),
    (stack_resolver_is_next_greater monotonic_stack_test_vec 0 2 6 (by decide)
      (by decide)).2.1.mpr (by decide)⟩

/-- C4, evaluated where the code departs from it: on `[3, 2, 1]` with window size 1 and
the decreasing comparator, after one `operator++` (position 1, not past the last window)
the dereferenced deque is `[3, 2]`, of length 2, which exceeds the window size 1. -/
theorem queue_longer_than_window :
    (1 : Nat) ≤ ([3, 2, 1] : List Int).length - 1 ∧
      (queue_at (vec ([3, 2, 1] : List Int) 0) 1 monotonic_decreasing 1).first = 1 ∧
      (queue_at (vec ([3, 2, 1] : List Int) 0) 1 monotonic_decreasing 1).deref = [3, 2] ∧
      1 < (queue_at (vec ([3, 2, 1] : List Int) 0) 1 monotonic_decreasing 1).deref.length := by
  decide

/-- C5 fails as stated: with the decreasing comparator the first window `[6, 6]` yields the
deque `[6, 6]`, whose first element is not strictly more extreme than the second; with
the increasing comparator `[1, 2, 0]` with window size 2 yields `[1, 2, 0]` at position
1, where the later 0 is strictly more extreme than the earlier 2. -/
theorem queue_not_strictly_sorted :
    ¬ List.Pairwise (fun a b => monotonic_decreasing a b = true)
        (queue_at (vec ([6, 6] : List Int) 0) 2 monotonic_decreasing 0).deref ∧
      ¬ List.Pairwise (fun a b => monotonic_increasing a b = true)
        (queue_at (vec ([1, 2, 0] : List Int) 0) 2 monotonic_increasing 1).deref ∧
      ¬ List.Pairwise (fun a b => monotonic_increasing b a = false)
        (queue_at (vec ([1, 2, 0] : List Int) 0) 2 monotonic_increasing 1).deref := by
  decide

/-- C5, amended: for every sequence `S`, window size `k` with `1 ≤ k ≤ |S|` and the
decreasing comparator, at every step `p ≤ |S| - k` of the traversal the cursor is at
position `p` and the dereferenced deque is non-increasing from front to back: no element
is less extreme than an element after it (equal neighbours are allowed). -/
theorem queue_decreasing_sorted [LinearOrder α] (S : List α) (d : α) (k p : Nat)
    (hk : 1 ≤ k) (hkn : k ≤ S.length) (hp : p ≤ S.length - k) :
    (queue_at (vec S d) k monotonic_decreasing p).first = p ∧
      List.Pairwise (fun a b => monotonic_decreasing b a = false)
        (queue_at (vec S d) k monotonic_decreasing p).deref ∧
      List.Pairwise (fun a b => b ≤ a)
        (queue_at (vec S d) k monotonic_decreasing p).deref := by
  have hs := queue_at_sorted (vec S d) k p
  refine ⟨(queue_at_first (vec S d) k monotonic_decreasing p).1, hs.imp ?_, hs⟩
  intro a b hab
  simpa [monotonic_decreasing] using hab

/-- Witness of the amended C5 on the vector of `monotonic_queue_test`, window size 4,
step 5. -/
theorem queue_decreasing_sorted_witness :
    (1 ≤ 4 ∧ 4 ≤ monotonic_queue_test_vec.length ∧ 5 ≤ monotonic_queue_test_vec.length - 4) ∧
      List.Pairwise (fun a b => b ≤ a)
        (queue_at (vec monotonic_queue_test_vec 0) 4 monotonic_decreasing 5).deref :=
  ⟨by decide,
    (queue_decreasing_sorted monotonic_queue_test_vec 0 4 5 (by decide) (by decide)
      (by decide)).2.2⟩

/-- C6: for the stack cursor with a comparator that is a strict weak ordering, after
construction and after every `operator++` the stack is monotonic from bottom to top: for
every element `a` beneath an element `b`, `comp(b, a)` is false. -/
theorem stack_monotone_bottom_to_top (comp : α → α → Bool) (hcomp : strict_weak_ordering comp)
    (rd : Int → α) (first : Int) (m : Nat) :
    List.Pairwise (fun a b => comp b a = false)
      ((monotonic_stack_iterator.incr rd)^[m]
        (monotonic_stack_iterator.init first comp)).deref :=
  (stack_iterate_monotone hcomp rd first m).2

/-- Witness of C6: the decreasing comparator on the vector of `monotonic_stack_test`,
after all seven elements have been consumed. -/
theorem stack_monotone_bottom_to_top_witness :
    strict_weak_ordering (monotonic_decreasing : Int → Int → Bool) ∧
      List.Pairwise (fun a b => (monotonic_decreasing : Int → Int → Bool) b a = false)
        ((monotonic_stack_iterator.incr (vec monotonic_stack_test_vec 0))^[7]
          (monotonic_stack_iterator.init 0 monotonic_decreasing)).deref :=
  ⟨decreasing_strict_weak_ordering,
    stack_monotone_bottom_to_top monotonic_decreasing decreasing_strict_weak_ordering
      (vec monotonic_stack_test_vec 0) 0 7⟩

/-- C7: on `[1, 3, 6, 2, 5, 1, 7, 5, 3, 9, 12]` with window size 4 and the decreasing
comparator, the loop of `monotonic_queue_test` (dereference, then `operator++`, until the
cursor equals the end cursor) ends, for any fuel of at least 8 and whatever lies past the
vector, and the fronts of the deques it yields are `[6, 6, 6, 7, 7, 7, 9, 12]`. -/
theorem queue_test_fronts (d : Int) (fuel : Nat) :
    (monotonic_queue_test_loop (vec monotonic_queue_test_vec d) (fuel + 8)
        (make_monotonic_queue_iterators (vec monotonic_queue_test_vec d) 0 11 4
          monotonic_decreasing).1
        (make_monotonic_queue_iterators (vec monotonic_queue_test_vec d) 0 11 4
          monotonic_decreasing).2).map (fun outs => outs.map List.head?)
      = some [some 6, some 6, some 6, some 7, some 7, some 7, some 9, some 12] := by
  rw [queue_test_loop_run (vec monotonic_queue_test_vec d) 8 (fuel + 8)
    (make_monotonic_queue_iterators (vec monotonic_queue_test_vec d) 0 11 4
      monotonic_decreasing).1
    (make_monotonic_queue_iterators (vec monotonic_queue_test_vec d) 0 11 4
      monotonic_decreasing).2 (by omega) rfl rfl]
  have hcongr : ∀ p ∈ List.range 8,
      ((monotonic_queue_iterator.incr (vec monotonic_queue_test_vec d))^[p]
        (make_monotonic_queue_iterators (vec monotonic_queue_test_vec d) 0 11 4
          monotonic_decreasing).1).deref
      = (queue_at (vec monotonic_queue_test_vec 0) 4 monotonic_decreasing p).deref := by
    intro p hp
    rw [List.mem_range] at hp
    rw [← queue_at_congr (vec monotonic_queue_test_vec d) (vec monotonic_queue_test_vec 0)
      monotonic_decreasing 4 p (by omega)
      (fun i hi => vec_congr monotonic_queue_test_vec d 0 i
        (by simp only [monotonic_queue_test_vec, List.length_cons, List.length_nil]; omega))]
    rfl
  rw [List.map_congr_left hcongr]
  decide

/-- C8 fails as stated: on `[50, 30, 10, 5, 3, 1, 20]` the element 30 is not resolved by
50; the list of resolutions the claim gives is not the one the code produces. -/
theorem stack_test_resolutions_not_as_claimed :
    resolutions monotonic_stack_test_vec 0
      ≠ [(50, none), (30, some 50), (10, some 20), (5, some 20), (3, some 20), (1, some 20),
          (20, none)] := by
  decide

/-- C8, amended: on `[50, 30, 10, 5, 3, 1, 20]` with the decreasing comparator, after all
elements have been consumed the resolutions are `50→none, 30→none, 10→20, 5→20, 3→20,
1→20, 20→none`, whatever lies past the vector. -/
theorem stack_test_resolutions (d : Int) :
    resolutions monotonic_stack_test_vec d
      = [(50, none), (30, none), (10, some 20), (5, some 20), (3, some 20), (1, some 20),
          (20, none)] := by
  rw [resolutions_congr monotonic_stack_test_vec d 0]
  decide

/-- C9: for every sequence `S` of `n` elements and window size `k` with `1 ≤ k ≤ n`, the
loop of `monotonic_queue_test` run on the pair of `make_monotonic_queue_iterators` ends
(any fuel of at least `n - k + 1` suffices) with exactly `n - k + 1` outputs, the output
of index `p` being the deque of the cursor at position `p` with window size `k`; with
`k = n` there is exactly one output. -/
theorem queue_traversal_window_count [LT α] [DecidableRel (fun a b : α => a < b)]
    (S : List α) (d : α) (k : Nat) (comp : α → α → Bool) (fuel : Nat)
    (hk : 1 ≤ k) (hkn : k ≤ S.length) (hfuel : S.length - k + 1 ≤ fuel) :
    ∃ outs : List (List α),
      monotonic_queue_test_loop (vec S d) fuel
          (make_monotonic_queue_iterators (vec S d) 0 (S.length : Int) k comp).1
          (make_monotonic_queue_iterators (vec S d) 0 (S.length : Int) k comp).2 = some outs ∧
        outs.length = S.length - k + 1 ∧
        (k = S.length → outs.length = 1) ∧
        ∀ p, p < S.length - k + 1 →
          outs[p]? = some (queue_at (vec S d) k comp p).deref ∧
            (queue_at (vec S d) k comp p).first = p ∧
            (queue_at (vec S d) k comp p).win_size = k := by
  refine ⟨(List.range (S.length - k + 1)).map (fun p => (queue_at (vec S d) k comp p).deref),
    ?_, by simp, ?_, ?_⟩
  · exact queue_test_loop_run (vec S d) (S.length - k + 1) fuel
      (make_monotonic_queue_iterators (vec S d) 0 (S.length : Int) k comp).1
      (make_monotonic_queue_iterators (vec S d) 0 (S.length : Int) k comp).2 hfuel rfl
      (by simp only [make_monotonic_queue_iterators, monotonic_queue_iterator.init]
          push_cast; omega)
  · intro h; simp [h]
  · intro p hp
    refine ⟨?_, (queue_at_first (vec S d) k comp p).1, (queue_at_first (vec S d) k comp p).2⟩
    simp [hp]

/-- Witness of C9 on the vector of `monotonic_queue_test` with window size 4 and fuel 8:
the loop ends with 8 outputs. -/
theorem queue_traversal_window_count_witness :
    (1 ≤ 4 ∧ 4 ≤ monotonic_queue_test_vec.length ∧
        monotonic_queue_test_vec.length - 4 + 1 ≤ 8) ∧
      ∃ outs : List (List Int),
        monotonic_queue_test_loop (vec monotonic_queue_test_vec 0) 8
            (make_monotonic_queue_iterators (vec monotonic_queue_test_vec 0) 0
              (monotonic_queue_test_vec.length : Int) 4 monotonic_decreasing).1
            (make_monotonic_queue_iterators (vec monotonic_queue_test_vec 0) 0
              (monotonic_queue_test_vec.length : Int) 4 monotonic_decreasing).2 = some outs ∧
          outs.length = 8 :=
  ⟨by decide,
    (queue_traversal_window_count monotonic_queue_test_vec 0 4 monotonic_decreasing 8
      (by decide) (by decide) (by decide)).imp (fun _ h => ⟨h.1, h.2.1⟩)⟩

/-- C10, evaluated where the code departs from it: on the vector of
`monotonic_queue_test` (11 elements, positions 0 to 10) with window size 4, the
construction of the end cursor by `make_monotonic_queue_iterators` dereferences position
11, and so does the last `operator++` of the loop; the end cursor sits at position 8,
so the trailing edge of its window is position 11, one past the last element. -/
theorem queue_test_reads_past_end :
    monotonic_queue_test_vec.length = 11 ∧
      (make_monotonic_queue_iterators (vec monotonic_queue_test_vec 0) 0 11 4
        monotonic_decreasing).2.first = 8 ∧
      (11 : Int) ∈ make_monotonic_queue_iterators_reads (vec monotonic_queue_test_vec 0) 0 11 4
        monotonic_decreasing ∧
      (11 : Int) ∈ monotonic_queue_test_loop_reads (vec monotonic_queue_test_vec 0) 8
        (make_monotonic_queue_iterators (vec monotonic_queue_test_vec 0) 0 11 4
          monotonic_decreasing).1
        (make_monotonic_queue_iterators (vec monotonic_queue_test_vec 0) 0 11 4
          monotonic_decreasing).2 := by
  decide

/-! ## Claims C11 to C20 -/

/-- C13: cursor equality is a position test. Two queue cursors compare equal exactly when
their positions and window sizes are equal, two stack cursors exactly when their
positions are equal, whatever their containers and comparators hold; `operator!=` is the
negation of `operator==`. -/
theorem cursor_equality_is_position_test :
    (∀ c e : monotonic_queue_iterator α,
      (monotonic_queue_iterator.eq c e = true ↔ c.first = e.first ∧ c.win_size = e.win_size) ∧
      monotonic_queue_iterator.ne c e = !monotonic_queue_iterator.eq c e) ∧
    (∀ (q1 q2 : List α) (f1 f2 : α → α → Bool) (k : Nat) (p : Int),
      monotonic_queue_iterator.eq
        { queue := q1, win_size := k, first := p, comp := f1 }
        { queue := q2, win_size := k, first := p, comp := f2 } = true) ∧
    (∀ c e : monotonic_stack_iterator α,
      (monotonic_stack_iterator.eq c e = true ↔ c.first = e.first) ∧
      monotonic_stack_iterator.ne c e = !monotonic_stack_iterator.eq c e) ∧
    (∀ (s1 s2 : List α) (f1 f2 : α → α → Bool) (p : Int),
      monotonic_stack_iterator.eq
        { comp := f1, data := s1, first := p }
        { comp := f2, data := s2, first := p } = true) := by
  refine ⟨fun c e => ⟨?_, rfl⟩, ?_, fun c e => ⟨?_, rfl⟩, ?_⟩
  · simp only [monotonic_queue_iterator.eq, Bool.and_eq_true, beq_iff_eq]
    exact ⟨fun h => ⟨h.2, h.1⟩, fun h => ⟨h.2, h.1⟩⟩
  · intro q1 q2 f1 f2 k p
    simp [monotonic_queue_iterator.eq]
  · simp only [monotonic_stack_iterator.eq, beq_iff_eq]
  · intro s1 s2 f1 f2 p
    simp [monotonic_stack_iterator.eq]

/-- C14: dereferencing is idempotent and free of side effects for both cursor types. The
cursor after `operator*` is the cursor before it (position, window size, container and
comparator unchanged), and a second dereference returns the same container as the first. -/
theorem deref_idempotent :
    (∀ c : monotonic_queue_iterator α,
      (monotonic_queue_iterator.deref_state c).2 = c ∧
      (monotonic_queue_iterator.deref_state c).1 = monotonic_queue_iterator.deref c ∧
      (monotonic_queue_iterator.deref_state (monotonic_queue_iterator.deref_state c).2).1
        = (monotonic_queue_iterator.deref_state c).1 ∧
      monotonic_queue_iterator.deref (monotonic_queue_iterator.deref_state c).2
        = monotonic_queue_iterator.deref c) ∧
    (∀ c : monotonic_stack_iterator α,
      (monotonic_stack_iterator.deref_state c).2 = c ∧
      (monotonic_stack_iterator.deref_state c).1 = monotonic_stack_iterator.deref c ∧
      (monotonic_stack_iterator.deref_state (monotonic_stack_iterator.deref_state c).2).1
        = (monotonic_stack_iterator.deref_state c).1 ∧
      monotonic_stack_iterator.deref (monotonic_stack_iterator.deref_state c).2
        = monotonic_stack_iterator.deref c) :=
  ⟨fun _ => ⟨rfl, rfl, rfl, rfl⟩, fun _ => ⟨rfl, rfl, rfl, rfl⟩⟩

/-- Popping from the back while `p` holds splits the list into the part kept and the
maximal run removed. -/
theorem rdropWhile_split (p : α → Bool) (l : List α) :
    l = l.rdropWhile p ++ l.rtakeWhile p ∧
      (∀ t ∈ l.rtakeWhile p, p t = true) ∧
      (∀ h : l.rdropWhile p ≠ [], p ((l.rdropWhile p).getLast h) = false) := by
  refine ⟨?_, fun t ht => List.mem_rtakeWhile_imp ht, fun h => ?_⟩
  · simp only [List.rdropWhile, List.rtakeWhile, ← List.reverse_append,
      List.takeWhile_append_dropWhile, List.reverse_reverse]
  · simpa using List.rdropWhile_last_not p l h

/-- C16: `operator++` of the stack cursor, for any comparator and any stack contents,
consumes the element `x` at the current position, moves the position forward by one and
leaves the old stack with its maximal run of tops `t` with `comp(x, t)` removed, followed
by `x`: the kept part is an unchanged bottom part of the old stack, the new top is `x`,
the stack is not empty afterwards, and on an empty stack the result is `[x]`. -/
theorem stack_incr_pops_then_pushes (rd : Int → α) (c : monotonic_stack_iterator α) :
    (monotonic_stack_iterator.incr rd c).first = c.first + 1 ∧
      (monotonic_stack_iterator.incr rd c).comp = c.comp ∧
      (∃ kept popped : List α,
        c.data = kept ++ popped ∧
        (∀ t ∈ popped, c.comp (rd c.first) t = true) ∧
        (∀ h : kept ≠ [], c.comp (rd c.first) (kept.getLast h) = false) ∧
        (monotonic_stack_iterator.incr rd c).data = kept ++ [rd c.first]) ∧
      (monotonic_stack_iterator.incr rd c).data ≠ [] ∧
      (monotonic_stack_iterator.incr rd c).data.getLast? = some (rd c.first) ∧
      (∀ (f : α → α → Bool) (p : Int),
        (monotonic_stack_iterator.incr rd { comp := f, data := [], first := p }).data
          = [rd p]) := by
  obtain ⟨hd, hc, hf⟩ := stack_incr_data rd c
  obtain ⟨h1, h2, h3⟩ := rdropWhile_split (fun t => c.comp (rd c.first) t) c.data
  refine ⟨hf, hc, ⟨_, _, h1, h2, h3, hd⟩, ?_, ?_, ?_⟩
  · rw [hd]; simp
  · rw [hd]; simp
  · intro f p
    simp [monotonic_stack_iterator.incr]

/-- C17: `operator++` of the queue cursor evicts by strict inequality only. When the
deque ends with one or more elements equal to the entering element `x`, nothing is
evicted: the deque is kept as it is, in insertion order, and `x` is appended after it. -/
theorem queue_incr_keeps_equal_back [LinearOrder α] (rd : Int → α)
    (c : monotonic_queue_iterator α) (q : List α) (r : Nat)
    (h : c.queue = q ++ List.replicate (r + 1) (rd (c.first + 1 + ((c.win_size : Int) - 1)))) :
    (monotonic_queue_iterator.incr rd c).queue
        = q ++ List.replicate (r + 1) (rd (c.first + 1 + ((c.win_size : Int) - 1)))
            ++ [rd (c.first + 1 + ((c.win_size : Int) - 1))] ∧
      (monotonic_queue_iterator.incr rd c).queue
        = c.queue ++ [rd (c.first + 1 + ((c.win_size : Int) - 1))] := by
  have hq : (monotonic_queue_iterator.incr rd c).queue
      = c.queue ++ [rd (c.first + 1 + ((c.win_size : Int) - 1))] := by
    simp only [monotonic_queue_iterator.incr]
    congr 1
    rw [h, List.replicate_succ', ← List.append_assoc, List.rdropWhile_concat_neg]
    simp
  exact ⟨by rw [hq, h], hq⟩

/-- Witness of C17, the example of the claim: the deque `[7, 5]` with entering element 5
becomes `[7, 5, 5]`. -/
theorem queue_incr_keeps_equal_back_witness :
    (monotonic_queue_iterator.init (vec ([7, 5, 5] : List Int) 0) 0 2
        monotonic_decreasing).queue = [7] ++ List.replicate 1 5 ∧
      (monotonic_queue_iterator.incr (vec ([7, 5, 5] : List Int) 0)
        (monotonic_queue_iterator.init (vec ([7, 5, 5] : List Int) 0) 0 2
          monotonic_decreasing)).queue = [7, 5, 5] :=
  ⟨by decide,
    (queue_incr_keeps_equal_back (vec ([7, 5, 5] : List Int) 0)
      (monotonic_queue_iterator.init (vec ([7, 5, 5] : List Int) 0) 0 2 monotonic_decreasing)
      [7] 0 (by decide)).1⟩

/-- C20: `operator++` of the queue cursor does not depend on the comparator. Two cursors
with the same position, window size and deque, whatever their comparators, get the same
position, window size and deque from `operator++`: the old deque with its maximal back
run of elements strictly smaller (by `<` of the element type) than the entering element
removed, followed by the entering element. -/
theorem queue_incr_ignores_comp [LT α] [DecidableRel (fun a b : α => a < b)] (rd : Int → α)
    (c e : monotonic_queue_iterator α) (hf : c.first = e.first)
    (hw : c.win_size = e.win_size) (hq : c.queue = e.queue) :
    (monotonic_queue_iterator.incr rd c).queue = (monotonic_queue_iterator.incr rd e).queue ∧
      (monotonic_queue_iterator.incr rd c).first = (monotonic_queue_iterator.incr rd e).first ∧
      (monotonic_queue_iterator.incr rd c).win_size
        = (monotonic_queue_iterator.incr rd e).win_size ∧
      (monotonic_queue_iterator.incr rd c).comp = c.comp ∧
      (monotonic_queue_iterator.incr rd e).comp = e.comp ∧
      ∃ kept erased : List α,
        c.queue = kept ++ erased ∧
        (∀ y ∈ erased, y < rd (c.first + 1 + ((c.win_size : Int) - 1))) ∧
        (∀ h : kept ≠ [], ¬ kept.getLast h < rd (c.first + 1 + ((c.win_size : Int) - 1))) ∧
        (monotonic_queue_iterator.incr rd c).queue
          = kept ++ [rd (c.first + 1 + ((c.win_size : Int) - 1))] := by
  obtain ⟨h1, h2, h3⟩ := rdropWhile_split
    (fun y => decide (y < rd (c.first + 1 + ((c.win_size : Int) - 1)))) c.queue
  refine ⟨?_, ?_, ?_, rfl, rfl, _, _, h1, ?_, ?_, rfl⟩
  · simp only [monotonic_queue_iterator.incr, hf, hw, hq]
  · simp only [monotonic_queue_iterator.incr, hf]
  · simp only [monotonic_queue_iterator.incr, hw]
  · intro y hy
    simpa using h2 y hy
  · intro h
    simpa using h3 h

/-- Witness of C20: the deque `[7, 5]` at position 0 with window size 2, once under the
decreasing and once under the increasing comparator, entering element 6. -/
theorem queue_incr_ignores_comp_witness :
    (monotonic_queue_iterator.incr (vec ([7, 5, 6] : List Int) 0)
        { queue := [7, 5], win_size := 2, first := 0, comp := monotonic_decreasing }).queue
      = (monotonic_queue_iterator.incr (vec ([7, 5, 6] : List Int) 0)
        { queue := [7, 5], win_size := 2, first := 0, comp := monotonic_increasing }).queue ∧
      (monotonic_queue_iterator.incr (vec ([7, 5, 6] : List Int) 0)
        { queue := [7, 5], win_size := 2, first := 0, comp := monotonic_increasing }).queue
      = [7, 6] :=
  ⟨(queue_incr_ignores_comp (vec ([7, 5, 6] : List Int) 0)
      { queue := [7, 5], win_size := 2, first := 0, comp := monotonic_decreasing }
      { queue := [7, 5], win_size := 2, first := 0, comp := monotonic_increasing }
      rfl rfl rfl).1,
    by decide⟩

/-- The loop of `monotonic_stack_test` runs `r` times when the end cursor sits `r`
positions ahead, given fuel of at least `r`; call `j` consumes position `it.first + j`. -/
theorem stack_test_loop_run (rd : Int → α) (r : Nat) :
    ∀ (fuel : Nat) (it mend : monotonic_stack_iterator α), r ≤ fuel →
      mend.first = it.first + r →
      monotonic_stack_test_loop rd fuel it mend
          = some ((List.range r).map
              (fun j => ((monotonic_stack_iterator.incr rd)^[j] it).deref)) ∧
        monotonic_stack_test_loop_reads rd fuel it mend
          = (List.range r).map (fun j : Nat => it.first + (j : Int)) := by
  induction r with
  | zero =>
    intro fuel it mend _ hf
    have hne : monotonic_stack_iterator.ne it mend = false := by
      simp [monotonic_stack_iterator.ne, monotonic_stack_iterator.eq, hf]
    cases fuel <;>
      simp [monotonic_stack_test_loop, monotonic_stack_test_loop_reads, hne]
  | succ r ih =>
    intro fuel it mend hfuel hf
    have hne : monotonic_stack_iterator.ne it mend = true := by
      simp only [monotonic_stack_iterator.ne, monotonic_stack_iterator.eq, hf]
      simp
      omega
    cases fuel with
    | zero => omega
    | succ f =>
      obtain ⟨h1, h2⟩ := ih f (monotonic_stack_iterator.incr rd it) mend (by omega)
        (by rw [(stack_incr_data rd it).2.2, hf]; push_cast; ring)
      refine ⟨?_, ?_⟩
      · simp only [monotonic_stack_test_loop, hne, if_true, h1, Option.map_some']
        rw [List.range_succ_eq_map]
        simp [Function.iterate_succ_apply, Function.comp_def]
      · simp only [monotonic_stack_test_loop_reads, hne, if_true, h2,
          monotonic_stack_iterator.incr_reads, (stack_incr_data rd it).2.2]
        rw [List.range_succ_eq_map]
        simp only [List.map_cons, List.map_map, Function.comp_def, List.singleton_append,
          Nat.cast_zero, add_zero, List.cons.injEq, true_and]
        apply List.map_congr_left
        intro j _
        push_cast; ring

/-- For every sequence `S`, the loop of `monotonic_stack_test` on the pair of
`make_monotonic_stack_iterators` calls `operator++` `|S| + 1` times, and the last call
dereferences position `|S|`. -/
theorem stack_test_loop_reads_past_end (S : List α) (d : α) (comp : α → α → Bool) :
    monotonic_stack_test_loop_reads (vec S d) (S.length + 1)
        (make_monotonic_stack_iterators 0 (S.length : Int) comp).1
        (make_monotonic_stack_iterators 0 (S.length : Int) comp).2
      = (List.range (S.length + 1)).map (fun j : Nat => (j : Int)) := by
  rw [(stack_test_loop_run (vec S d) (S.length + 1) (S.length + 1)
    (make_monotonic_stack_iterators 0 (S.length : Int) comp).1
    (make_monotonic_stack_iterators 0 (S.length : Int) comp).2 le_rfl
    (by simp only [make_monotonic_stack_iterators, monotonic_stack_iterator.init]
        push_cast; ring)).2]
  simp [make_monotonic_stack_iterators, monotonic_stack_iterator.init]

/-- C11, evaluated where the code departs from it: on the vector of
`monotonic_stack_test` (7 elements, positions 0 to 6) the end cursor of
`make_monotonic_stack_iterators` sits at position 8, not 7; the loop ends after 8
outputs and 8 calls of `operator++`, and the last call consumes position 7, one past the
last element. -/
theorem stack_test_end_cursor_past_end :
    monotonic_stack_test_vec.length = 7 ∧
      (make_monotonic_stack_iterators 0 7
        (monotonic_decreasing : Int → Int → Bool)).2.first = 8 ∧
      (monotonic_stack_test_loop (vec monotonic_stack_test_vec 0) 8
        (make_monotonic_stack_iterators 0 7 monotonic_decreasing).1
        (make_monotonic_stack_iterators 0 7 monotonic_decreasing).2).map List.length
        = some 8 ∧
      monotonic_stack_test_loop_reads (vec monotonic_stack_test_vec 0) 8
        (make_monotonic_stack_iterators 0 7 monotonic_decreasing).1
        (make_monotonic_stack_iterators 0 7 monotonic_decreasing).2
        = [0, 1, 2, 3, 4, 5, 6, 7] := by
  decide

/-- C12 fails as stated: with window size 0 the constructor does not fail; over the
vector `[7]` it produces a cursor with window size 0 whose deque is `[7]`. -/
theorem queue_init_zero_window_not_rejected :
    (monotonic_queue_iterator.init (vec ([7] : List Int) 0) 0 0 monotonic_decreasing).win_size
        = 0 ∧
      (monotonic_queue_iterator.init (vec ([7] : List Int) 0) 0 0 monotonic_decreasing).deref
        = [7] := by
  decide

/-- C12, amended: constructing a window cursor with window size 0 is not rejected. For
any storage, start position and comparator the constructor skips its loop, dereferences
the start position once and produces the cursor with window size 0 at that position
whose deque holds exactly the element at the start position. -/
theorem queue_init_zero_window (rd : Int → α) (first : Int) (comp : α → α → Bool) :
    monotonic_queue_iterator.init rd first 0 comp
        = { queue := [rd first], win_size := 0, first := first, comp := comp } ∧
      monotonic_queue_iterator.init_reads rd first 0 comp = [first] := by
  simp [monotonic_queue_iterator.init, monotonic_queue_iterator.init_reads,
    monotonic_queue_iterator.scan, monotonic_queue_iterator.scan_reads]

/-- For a strict weak ordering, after `j ≤ k` iterations of the constructor loop `max_it`
is the earliest position among the first `j` whose value no scanned value beats. -/
theorem scan_range_extreme {comp : α → α → Bool} (h : strict_weak_ordering comp)
    (rd : Int → α) (first : Int) (k j : Nat) (hj : j ≤ k) :
    ∃ q : Nat, q ≤ min j (k - 1) ∧
      ((List.range j).foldl (monotonic_queue_iterator.scan_step rd comp k) (first, first)).2
        = first + q ∧
      (∀ i : Nat, i < j → comp (rd (first + i)) (rd (first + q)) = false) ∧
      (∀ i : Nat, i < q → comp (rd (first + q)) (rd (first + i)) = true) := by
  induction j with
  | zero => exact ⟨0, by simp, by simp, by intro i hi; omega, by intro i hi; omega⟩
  | succ j ih =>
    obtain ⟨q, hq, hmax, hbeat, hearly⟩ := ih (by omega)
    obtain ⟨hit, -⟩ := scan_range rd comp first k j (by omega)
    have hmin : min j (k - 1) = j := by omega
    rw [hmin] at hit hq
    rw [List.range_succ, List.foldl_append]
    simp only [List.foldl_cons, List.foldl_nil, monotonic_queue_iterator.scan_step]
    rw [hit, hmax]
    by_cases hc : comp (rd (first + j)) (rd (first + q)) = true
    · refine ⟨j, by omega, by simp [hc], ?_, ?_⟩
      · intro i hi
        rcases Nat.lt_succ_iff_lt_or_eq.mp hi with hlt | heq
        · by_contra hcon
          have hcon : comp (rd (first + i)) (rd (first + j)) = true := by simpa using hcon
          have := h.2.1 _ _ _ hcon hc
          rw [hbeat i hlt] at this
          exact Bool.noConfusion this
        · subst heq; exact h.1 _
      · intro i hi
        by_contra hcon
        have hcon : comp (rd (first + j)) (rd (first + i)) = false := by simpa using hcon
        have := strict_weak_ordering_neg_trans h hcon (hbeat i hi)
        rw [hc] at this
        exact Bool.noConfusion this
    · have hc2 : comp (rd (first + j)) (rd (first + q)) = false := by simpa using hc
      refine ⟨q, by omega, by simp [hc2], ?_, hearly⟩
      intro i hi
      rcases Nat.lt_succ_iff_lt_or_eq.mp hi with hlt | heq
      · exact hbeat i hlt
      · subst heq; exact hc2

/-- The deque the constructor builds: the value at `max_it`, followed by the value at the
last scanned position when that is another position. -/
theorem init_queue_shape (rd : Int → α) (comp : α → α → Bool) (first : Int) (k q : Nat)
    (hk : 1 ≤ k) (hq : q ≤ k - 1)
    (hmax : (monotonic_queue_iterator.scan rd comp first k).2 = first + q) :
    (monotonic_queue_iterator.init rd first k comp).queue
      = rd (first + q) :: (if q = k - 1 then [] else [rd (first + ((k - 1 : Nat) : Int))]) := by
  obtain ⟨hit, -⟩ := scan_range rd comp first k k le_rfl
  have hmin : min k (k - 1) = k - 1 := by omega
  rw [hmin] at hit
  have hit2 : (monotonic_queue_iterator.scan rd comp first k).1
      = first + ((k - 1 : Nat) : Int) := hit
  simp only [monotonic_queue_iterator.init, hmax, hit2]
  by_cases hqk : q = k - 1
  · simp [hqk]
  · have hne : first + (q : Int) ≠ first + ((k - 1 : Nat) : Int) := by
      intro hcon
      apply hqk
      have : (q : Int) = ((k - 1 : Nat) : Int) := by linarith
      exact_mod_cast this
    simp [hqk, hne]

/-- C15 fails as stated: `≤` is a comparator the cursor accepts, and over the first
window `[1, 1]` the constructor ends on the later of the two equal elements; the front 1
is beaten, in the sense of `comp`, by an element of the window. -/
theorem queue_init_extreme_needs_strict_order :
    (monotonic_queue_iterator.init (vec ([1, 1] : List Int) 0) 0 2
        (fun a b => decide (a ≤ b))).deref = [1] ∧
      (monotonic_queue_iterator.scan (vec ([1, 1] : List Int) 0)
        (fun a b => decide (a ≤ b)) 0 2).2 = 1 ∧
      ¬ ∃ q : Nat, q < 2 ∧
        (monotonic_queue_iterator.init (vec ([1, 1] : List Int) 0) 0 2
          (fun a b => decide (a ≤ b))).deref.head? = some (([1, 1] : List Int).getD q 0) ∧
        ∀ i : Nat, i < 2 →
          (fun a b : Int => decide (a ≤ b)) (([1, 1] : List Int).getD i 0)
            (([1, 1] : List Int).getD q 0) = false := by
  decide

/-- C15, amended: for every comparator that is a strict weak ordering, window size
`k ≥ 1` and sequence with at least `k` elements from the start position `p`, the
constructed deque has as front the most extreme element `m` of the first `k` elements,
ties broken by earliest position (no element of the window satisfies `comp(e, m)` and no
earlier element is equivalent to `m`); the deque is `[m]` when `m` sits at the last
scanned position and `[m, last scanned element]` otherwise. -/
theorem queue_init_extreme (S : List α) (d : α) (p k : Nat) (comp : α → α → Bool)
    (hcomp : strict_weak_ordering comp) (hk : 1 ≤ k) (hlen : p + k ≤ S.length) :
    (monotonic_queue_iterator.init (vec S d) p k comp).first = p ∧
      (monotonic_queue_iterator.init (vec S d) p k comp).win_size = k ∧
      ∃ (q : Nat) (m : α), q < k ∧ S[p + q]? = some m ∧
        (monotonic_queue_iterator.init (vec S d) p k comp).deref.head? = some m ∧
        (∀ (i : Nat) (e : α), i < k → S[p + i]? = some e → comp e m = false) ∧
        (∀ (i : Nat) (e : α), i < q → S[p + i]? = some e →
          ¬ (comp e m = false ∧ comp m e = false)) ∧
        (q = k - 1 → (monotonic_queue_iterator.init (vec S d) p k comp).deref = [m]) ∧
        (q ≠ k - 1 → ∃ l : α, S[p + (k - 1)]? = some l ∧
          (monotonic_queue_iterator.init (vec S d) p k comp).deref = [m, l]) := by
  obtain ⟨q, hq, hmax, hbeat, hearly⟩ := scan_range_extreme hcomp (vec S d) (p : Int) k k le_rfl
  have hmin : min k (k - 1) = k - 1 := by omega
  rw [hmin] at hq
  have hshape := init_queue_shape (vec S d) comp (p : Int) k q hk hq hmax
  have hcell : ∀ i : Nat, vec S d ((p : Int) + (i : Int)) = S.getD (p + i) d := by
    intro i
    rw [← vec_natCast S d (p + i)]
    push_cast; rfl
  simp only [hcell] at hbeat hearly hshape
  have hget : ∀ (i : Nat) (e : α), i < k → S[p + i]? = some e → S.getD (p + i) d = e := by
    intro i e hi he
    rw [getElem?_eq_some_getD S d (p + i) (by omega)] at he
    exact Option.some.inj he
  refine ⟨rfl, rfl, q, S.getD (p + q) d, by omega,
    getElem?_eq_some_getD S d (p + q) (by omega), ?_, ?_, ?_, ?_, ?_⟩
  · simp [monotonic_queue_iterator.deref, hshape]
  · intro i e hi he
    rw [← hget i e hi he]
    exact hbeat i hi
  · intro i e hi he hcon
    rw [← hget i e (by omega) he, hearly i hi] at hcon
    exact Bool.noConfusion hcon.2
  · intro hqk
    simp [monotonic_queue_iterator.deref, hshape, hqk]
  · intro hqk
    exact ⟨S.getD (p + (k - 1)) d, getElem?_eq_some_getD S d (p + (k - 1)) (by omega),
      by simp [monotonic_queue_iterator.deref, hshape, hqk]⟩

/-- Witness of the amended C15, the example of the claim: with the decreasing comparator
the first window `[6, 6]` yields the deque `[6, 6]`, its front being the element of
position 0. -/
theorem queue_init_extreme_witness :
    (strict_weak_ordering (monotonic_decreasing : Int → Int → Bool) ∧ 1 ≤ 2 ∧
        0 + 2 ≤ ([6, 6] : List Int).length) ∧
      (monotonic_queue_iterator.init (vec ([6, 6] : List Int) 0) (0 : Nat) 2
        monotonic_decreasing).first = (0 : Nat) ∧
      (monotonic_queue_iterator.init (vec ([6, 6] : List Int) 0) (0 : Nat) 2
        monotonic_decreasing).deref = [6, 6] :=
  ⟨⟨decreasing_strict_weak_ordering, by decide, by decide⟩,
    (queue_init_extreme ([6, 6] : List Int) 0 0 2 monotonic_decreasing
      decreasing_strict_weak_ordering (by decide) (by decide)).1,
    by decide⟩

/-- With the decreasing comparator and `k ≥ 1`, after `m` calls the deque ends with the
cell `m + k - 1` and starts with a value of the cells `0 .. m + k - 1` that is at least
every one of them. -/
theorem queue_at_front_max [LinearOrder α] (rd : Int → α) (k m : Nat) (hk : 1 ≤ k) :
    (queue_at rd k monotonic_decreasing m).queue.getLast?
        = some (rd ((m + k - 1 : Nat) : Int)) ∧
      ∃ a : α, (queue_at rd k monotonic_decreasing m).queue.head? = some a ∧
        (∃ i : Nat, i < m + k ∧ a = rd (i : Int)) ∧
        ∀ i : Nat, i < m + k → rd (i : Int) ≤ a := by
  induction m with
  | zero =>
    obtain ⟨hit, q, hq, hmax⟩ := scan_range rd monotonic_decreasing 0 k k le_rfl
    have hmin : min k (k - 1) = k - 1 := by omega
    rw [hmin] at hit hq
    have hshape := init_queue_shape rd monotonic_decreasing 0 k q hk hq hmax
    have hle := scan_range_decreasing rd 0 k k le_rfl
    rw [hmax] at hle
    simp only [zero_add] at hshape hle
    simp only [queue_at, Function.iterate_zero, id_eq, hshape, Nat.zero_add]
    refine ⟨?_, rd (q : Int), by simp, ⟨q, by omega, rfl⟩, fun i hi => hle i hi⟩
    by_cases hqk : q = k - 1
    · simp [hqk]
    · simp [hqk]
  | succ m ih =>
    obtain ⟨-, a, hhead, ⟨i0, hi0, ha⟩, hmaxa⟩ := ih
    obtain ⟨hf, hw⟩ := queue_at_first rd k monotonic_decreasing m
    have hcell : (queue_at rd k monotonic_decreasing m).first + 1
        + (((queue_at rd k monotonic_decreasing m).win_size : Int) - 1)
        = ((m + k : Nat) : Int) := by
      rw [hf, hw]; push_cast; ring
    have hq : (queue_at rd k monotonic_decreasing (m + 1)).queue
        = (queue_at rd k monotonic_decreasing m).queue.rdropWhile
            (fun y => decide (y < rd ((m + k : Nat) : Int))) ++ [rd ((m + k : Nat) : Int)] := by
      rw [queue_at_succ]
      simp only [monotonic_queue_iterator.incr, hcell]
    have hidx : m + 1 + k - 1 = m + k := by omega
    rw [hq, hidx]
    refine ⟨by simp, ?_⟩
    have hsorted := rdropWhile_push_sorted (rd ((m + k : Nat) : Int)) _
      (queue_at_sorted rd k m)
    cases hkept : (queue_at rd k monotonic_decreasing m).queue.rdropWhile
        (fun y => decide (y < rd ((m + k : Nat) : Int))) with
    | nil =>
      have hall := (List.rdropWhile_eq_nil_iff).mp hkept
      have ha_mem : a ∈ (queue_at rd k monotonic_decreasing m).queue :=
        List.mem_of_mem_head? hhead
      have halt : a < rd ((m + k : Nat) : Int) := by simpa using hall a ha_mem
      refine ⟨rd ((m + k : Nat) : Int), by simp, ⟨m + k, by omega, rfl⟩, ?_⟩
      intro i hi
      rcases Nat.lt_succ_iff_lt_or_eq.mp (by omega : i < (m + k) + 1) with hlt | heq
      · exact le_trans (hmaxa i hlt) (le_of_lt halt)
      · rw [heq]
    | cons b t =>
      rw [hkept] at hsorted
      have hpre := List.rdropWhile_prefix
        (fun y => decide (y < rd ((m + k : Nat) : Int)))
        (queue_at rd k monotonic_decreasing m).queue
      rw [hkept] at hpre
      obtain ⟨s, hs⟩ := hpre
      have hb : b = a := by
        rw [← hs] at hhead
        simpa using hhead
      subst hb
      have hxb : rd ((m + k : Nat) : Int) ≤ b := by
        have := List.pairwise_append.mp hsorted
        exact this.2.2 b (by simp) _ (by simp)
      refine ⟨b, by simp, ⟨i0, by omega, ha⟩, ?_⟩
      intro i hi
      rcases Nat.lt_succ_iff_lt_or_eq.mp (by omega : i < (m + k) + 1) with hlt | heq
      · exact hmaxa i hlt
      · rw [heq]; exact hxb

/-- C19: for the window cursor with the decreasing comparator, every sequence `S` and
`1 ≤ k ≤ |S|`, at every step with position `p ≤ |S| - k` the deque is non-empty and
non-increasing from front to back, its back is `S[p + k - 1]`, and its front is the
maximum of the whole consumed part `S[0 .. p + k - 1]`, not of the window alone; the next
`operator++` removes a back run of elements that are smaller than the entering element
and nothing else, so no element is removed for having left the window. -/
theorem queue_front_is_prefix_max [LinearOrder α] (S : List α) (d : α) (k p : Nat)
    (hk : 1 ≤ k) (hkn : k ≤ S.length) (hp : p ≤ S.length - k) :
    (queue_at (vec S d) k monotonic_decreasing p).first = p ∧
      (queue_at (vec S d) k monotonic_decreasing p).deref ≠ [] ∧
      List.Pairwise (fun a b => b ≤ a) (queue_at (vec S d) k monotonic_decreasing p).deref ∧
      (queue_at (vec S d) k monotonic_decreasing p).deref.getLast? = S[p + k - 1]? ∧
      (∃ a : α, (queue_at (vec S d) k monotonic_decreasing p).deref.head? = some a ∧
        (∃ i : Nat, i < p + k ∧ S[i]? = some a) ∧
        ∀ (i : Nat) (x : α), i < p + k → S[i]? = some x → x ≤ a) ∧
      ∃ kept erased : List α,
        (queue_at (vec S d) k monotonic_decreasing p).deref = kept ++ erased ∧
        (∀ y ∈ erased, y < vec S d ((p + k : Nat) : Int)) ∧
        (∀ h : kept ≠ [], ¬ kept.getLast h < vec S d ((p + k : Nat) : Int)) ∧
        (queue_at (vec S d) k monotonic_decreasing (p + 1)).deref
          = kept ++ [vec S d ((p + k : Nat) : Int)] := by
  obtain ⟨hlast, a, hhead, ⟨i0, hi0, ha⟩, hmax⟩ := queue_at_front_max (vec S d) k p hk
  obtain ⟨hf, hw⟩ := queue_at_first (vec S d) k monotonic_decreasing p
  simp only [vec_natCast] at hlast ha hmax
  have hcell : (queue_at (vec S d) k monotonic_decreasing p).first + 1
      + (((queue_at (vec S d) k monotonic_decreasing p).win_size : Int) - 1)
      = ((p + k : Nat) : Int) := by
    rw [hf, hw]; push_cast; ring
  obtain ⟨h1, h2, h3⟩ := rdropWhile_split
    (fun y => decide (y < vec S d ((p + k : Nat) : Int)))
    (queue_at (vec S d) k monotonic_decreasing p).queue
  refine ⟨hf, ?_, queue_at_sorted (vec S d) k p, ?_, ⟨a, hhead, ⟨i0, hi0, ?_⟩, ?_⟩,
    _, _, h1, ?_, ?_, ?_⟩
  · intro hnil
    simp only [monotonic_queue_iterator.deref] at hnil
    rw [hnil] at hhead
    simp at hhead
  · rw [getElem?_eq_some_getD S d (p + k - 1) (by omega)]
    exact hlast
  · rw [getElem?_eq_some_getD S d i0 (by omega), ha]
  · intro i x hi hx
    rw [getElem?_eq_some_getD S d i (by omega)] at hx
    rw [← Option.some.inj hx]
    exact hmax i hi
  · intro y hy
    simpa using h2 y hy
  · intro h
    simpa using h3 h
  · rw [queue_at_succ]
    simp only [monotonic_queue_iterator.deref, monotonic_queue_iterator.incr, hcell]

/-- Witness of C19 on the vector of `monotonic_queue_test`, window size 4, step 5: the
cursor is at position 5 and the deque is not empty. -/
theorem queue_front_is_prefix_max_witness :
    (1 ≤ 4 ∧ 4 ≤ monotonic_queue_test_vec.length ∧ 5 ≤ monotonic_queue_test_vec.length - 4) ∧
      (queue_at (vec monotonic_queue_test_vec 0) 4 monotonic_decreasing 5).first = (5 : Nat) ∧
      (queue_at (vec monotonic_queue_test_vec 0) 4 monotonic_decreasing 5).deref.getLast?
        = monotonic_queue_test_vec[5 + 4 - 1]? :=
  ⟨by decide,
    (queue_front_is_prefix_max monotonic_queue_test_vec 0 4 5 (by decide) (by decide)
      (by decide)).1,
    (queue_front_is_prefix_max monotonic_queue_test_vec 0 4 5 (by decide) (by decide)
      (by decide)).2.2.2.1⟩

/-! ## Insertions and removals over a traversal -/

/-- One call turns `kept ++ run` into `kept ++ [x]`, logs `run` as removed and `x` as
appended: container and removals together stay a rearrangement of the insertions. -/
theorem log_step_perm {β : Type} (kept run E P : List β) (x : β)
    (h : List.Perm ((kept ++ run) ++ E) P) :
    List.Perm ((kept ++ [x]) ++ (E ++ run)) (P ++ [x]) := by
  have h1 : List.Perm ((kept ++ [x]) ++ (E ++ run)) (((kept ++ run) ++ E) ++ [x]) := by
    simp only [List.append_assoc]
    refine List.Perm.append_left kept ?_
    refine (List.perm_append_comm : List.Perm ([x] ++ (E ++ run)) ((E ++ run) ++ [x])).trans ?_
    rw [← List.append_assoc]
    exact List.Perm.append_right [x] List.perm_append_comm
  exact h1.trans (List.Perm.append_right [x] h)

/-- From the rearrangement invariant: every removal is an insertion, no position is
removed twice when none is appended twice, and removals do not outnumber insertions. -/
theorem removed_of_perm {β : Type} (Q R P : List β) (h : List.Perm (Q ++ R) P)
    (hP : P.Nodup) : R.Nodup ∧ (∀ i ∈ R, i ∈ P) ∧ R.length ≤ P.length := by
  have hn : (Q ++ R).Nodup := h.nodup_iff.mpr hP
  refine ⟨(List.nodup_append.mp hn).2.1, fun i hi => h.subset (List.mem_append_right Q hi), ?_⟩
  rw [← h.length_eq, List.length_append]
  omega

/-- For any comparator, after `m` calls the positions on the stack together with the
positions popped so far are a rearrangement of the positions appended so far, which are
`0, 1, ..., m - 1`. -/
theorem stack_log_invariant (rd : Int → α) (comp : α → α → Bool) (m : Nat) :
    stack_pushed_positions rd comp m = (List.range m).map (fun j : Nat => (j : Int)) ∧
      List.Perm
        ((stack_at (tagged rd) (on_value comp) m).data.map Prod.fst
          ++ stack_popped_positions rd comp m)
        (stack_pushed_positions rd comp m) := by
  induction m with
  | zero => simp [stack_pushed_positions, stack_popped_positions, stack_at,
      monotonic_stack_iterator.init]
  | succ m ih =>
    obtain ⟨hpush, hperm⟩ := ih
    obtain ⟨hd, -, -⟩ := stack_incr_data (tagged rd) (stack_at (tagged rd) (on_value comp) m)
    have hfirst := stack_at_first (tagged rd) (on_value comp) m
    obtain ⟨hsplit, -, -⟩ := rdropWhile_split
      (fun t => (stack_at (tagged rd) (on_value comp) m).comp
        (tagged rd (stack_at (tagged rd) (on_value comp) m).first) t)
      (stack_at (tagged rd) (on_value comp) m).data
    have hpush2 : stack_pushed_positions rd comp (m + 1)
        = stack_pushed_positions rd comp m ++ [(m : Int)] := by
      simp [stack_pushed_positions, monotonic_stack_iterator.incr_pushed, hfirst, tagged]
    refine ⟨?_, ?_⟩
    · rw [hpush2, hpush, List.range_succ, List.map_append]
      rfl
    · rw [hpush2, stack_at_succ, hd]
      simp only [stack_popped_positions, monotonic_stack_iterator.incr_popped,
        List.map_append, List.map_cons, List.map_nil]
      have hx : (tagged rd (stack_at (tagged rd) (on_value comp) m).first).1 = (m : Int) := by
        simp [tagged, hfirst]
      rw [hx]
      apply log_step_perm
      rw [← List.map_append, ← hsplit]
      exact hperm

/-- The queue `operator++` on tagged cells, spelled out: the eviction looks at the values
only. -/
theorem tagged_queue_incr_spec [LT α] [DecidableRel (fun a b : α => a < b)] (rd : Int → α)
    (c : monotonic_queue_iterator (Int × α)) :
    (tagged_queue_incr rd c).queue
        = c.queue.rdropWhile
            (fun y => decide (y.2 < rd (c.first + 1 + ((c.win_size : Int) - 1))))
          ++ [(c.first + 1 + ((c.win_size : Int) - 1),
                rd (c.first + 1 + ((c.win_size : Int) - 1)))] ∧
      @monotonic_queue_iterator.incr_erased (Int × α) value_lt value_lt_dec (tagged rd) c
        = c.queue.rtakeWhile
            (fun y => decide (y.2 < rd (c.first + 1 + ((c.win_size : Int) - 1)))) ∧
      (tagged_queue_incr rd c).first = c.first + 1 ∧
      (tagged_queue_incr rd c).win_size = c.win_size :=
  ⟨rfl, rfl, rfl, rfl⟩

theorem tagged_queue_at_succ [LT α] [DecidableRel (fun a b : α => a < b)] (rd : Int → α)
    (k : Nat) (comp : α → α → Bool) (m : Nat) :
    tagged_queue_at rd k comp (m + 1) = tagged_queue_incr rd (tagged_queue_at rd k comp m) := by
  simp only [tagged_queue_at, Function.iterate_succ_apply']

theorem tagged_queue_at_first [LT α] [DecidableRel (fun a b : α => a < b)] (rd : Int → α)
    (k : Nat) (comp : α → α → Bool) (m : Nat) :
    (tagged_queue_at rd k comp m).first = m ∧ (tagged_queue_at rd k comp m).win_size = k := by
  induction m with
  | zero => simp [tagged_queue_at, monotonic_queue_iterator.init]
  | succ m ih =>
    rw [tagged_queue_at_succ, (tagged_queue_incr_spec rd _).2.2.1,
      (tagged_queue_incr_spec rd _).2.2.2, ih.1, ih.2]
    exact ⟨by push_cast; ring, rfl⟩

/-- Tagging the cells with their positions does not change the run of the queue cursor:
the values of the tagged deque are the deque of the untagged run. -/
theorem tagged_queue_at_values [LT α] [DecidableRel (fun a b : α => a < b)] (rd : Int → α)
    (k : Nat) (comp : α → α → Bool) (m : Nat) :
    (tagged_queue_at rd k comp m).queue.map Prod.snd = (queue_at rd k comp m).queue := by
  induction m with
  | zero =>
    have hscan : monotonic_queue_iterator.scan (tagged rd) (on_value comp) 0 k
        = monotonic_queue_iterator.scan rd comp 0 k := rfl
    simp only [tagged_queue_at, queue_at, Function.iterate_zero, id_eq,
      monotonic_queue_iterator.init, hscan]
    split_ifs <;> simp [tagged]
  | succ m ih =>
    obtain ⟨hf, hw⟩ := tagged_queue_at_first rd k comp m
    obtain ⟨hf2, hw2⟩ := queue_at_first rd k comp m
    rw [tagged_queue_at_succ, queue_at_succ, (tagged_queue_incr_spec rd _).1, hf, hw]
    simp only [monotonic_queue_iterator.incr, hf2, hw2, ← ih, List.map_append, List.map_cons,
      List.map_nil]
    rw [rdropWhile_map]

/-- For `k ≥ 1`, the positions appended up to call `m` are the one or two positions of the
constructor, both below `k`, followed by `k, k + 1, ..., k + m - 1`; the positions in the
deque together with the positions erased so far are a rearrangement of them. -/
theorem queue_log_invariant [LT α] [DecidableRel (fun a b : α => a < b)] (rd : Int → α)
    (k : Nat) (comp : α → α → Bool) (hk : 1 ≤ k) (m : Nat) :
    (∃ q : Nat, q ≤ k - 1 ∧
      queue_pushed_positions rd k comp m
        = ((q : Int) :: (if q = k - 1 then [] else [((k - 1 : Nat) : Int)]))
            ++ (List.range m).map (fun j : Nat => ((k + j : Nat) : Int))) ∧
      List.Perm
        ((tagged_queue_at rd k comp m).queue.map Prod.fst ++ queue_erased_positions rd k comp m)
        (queue_pushed_positions rd k comp m) := by
  induction m with
  | zero =>
    obtain ⟨-, q, hq, hmax⟩ := scan_range (tagged rd) (on_value comp) 0 k k le_rfl
    have hmin : min k (k - 1) = k - 1 := by omega
    rw [hmin] at hq
    have hshape := init_queue_shape (tagged rd) (on_value comp) 0 k q hk hq hmax
    refine ⟨⟨q, hq, ?_⟩, ?_⟩
    · simp only [queue_pushed_positions, hshape]
      split_ifs <;> simp [tagged]
    · simp [queue_pushed_positions, queue_erased_positions, tagged_queue_at]
  | succ m ih =>
    obtain ⟨⟨q, hq, hpush⟩, hperm⟩ := ih
    obtain ⟨hf, hw⟩ := tagged_queue_at_first rd k comp m
    obtain ⟨hqueue, herased, -, -⟩ := tagged_queue_incr_spec rd (tagged_queue_at rd k comp m)
    have hcell : (tagged_queue_at rd k comp m).first + 1
        + (((tagged_queue_at rd k comp m).win_size : Int) - 1) = ((k + m : Nat) : Int) := by
      rw [hf, hw]; push_cast; ring
    rw [hcell] at hqueue herased
    obtain ⟨hsplit, -, -⟩ := rdropWhile_split
      (fun y : Int × α => decide (y.2 < rd ((k + m : Nat) : Int)))
      (tagged_queue_at rd k comp m).queue
    have hpush2 : queue_pushed_positions rd k comp (m + 1)
        = queue_pushed_positions rd k comp m ++ [((k + m : Nat) : Int)] := by
      simp only [queue_pushed_positions, monotonic_queue_iterator.incr_pushed, hcell]
      simp [tagged]
    refine ⟨⟨q, hq, ?_⟩, ?_⟩
    · rw [hpush2, hpush, List.range_succ, List.map_append, List.append_assoc]
      rfl
    · rw [hpush2, tagged_queue_at_succ, hqueue]
      simp only [queue_erased_positions, herased, List.map_append, List.map_cons, List.map_nil]
      apply log_step_perm
      rw [← List.map_append, ← hsplit]
      exact hperm

/-- For `1 ≤ k` and `m` calls the positions appended are pairwise distinct, lie in
`0 .. k + m - 1`, and number at most `k + m`. -/
theorem queue_pushed_positions_nodup [LT α] [DecidableRel (fun a b : α => a < b)]
    (rd : Int → α) (k : Nat) (comp : α → α → Bool) (hk : 1 ≤ k) (m : Nat) :
    (queue_pushed_positions rd k comp m).Nodup ∧
      (∀ i ∈ queue_pushed_positions rd k comp m, 0 ≤ i ∧ i < ((k + m : Nat) : Int)) ∧
      (queue_pushed_positions rd k comp m).length ≤ k + m := by
  obtain ⟨⟨q, hq, hpush⟩, -⟩ := queue_log_invariant rd k comp hk m
  rw [hpush]
  have hmem : ∀ i : Int, i ∈ (List.range m).map (fun j : Nat => ((k + j : Nat) : Int)) →
      (k : Int) ≤ i ∧ i < ((k + m : Nat) : Int) := by
    intro i hi
    simp only [List.mem_map, List.mem_range] at hi
    obtain ⟨j, hj, rfl⟩ := hi
    exact ⟨by push_cast; omega, by push_cast; omega⟩
  have hnd2 : ((List.range m).map (fun j : Nat => ((k + j : Nat) : Int))).Nodup := by
    refine (List.nodup_range m).map ?_
    intro a b hab
    have : ((k + a : Nat) : Int) = ((k + b : Nat) : Int) := hab
    omega
  refine ⟨?_, ?_, ?_⟩
  · rw [List.nodup_append]
    refine ⟨?_, hnd2, ?_⟩
    · by_cases hqk : q = k - 1
      · simp [hqk]
      · simp only [hqk, if_false, List.nodup_cons, List.mem_singleton, List.not_mem_nil,
          not_false_eq_true, List.nodup_nil, and_self, and_true]
        omega
    · intro i hi1 hi2
      have h2 := (hmem i hi2).1
      by_cases hqk : q = k - 1
      · simp only [hqk, if_true, List.mem_singleton] at hi1
        omega
      · simp only [hqk, if_false, List.mem_cons, List.mem_singleton, List.not_mem_nil,
          or_false] at hi1
        omega
  · intro i hi
    rcases List.mem_append.mp hi with h1 | h2
    · by_cases hqk : q = k - 1
      · simp only [hqk, if_true, List.mem_singleton] at h1
        omega
      · simp only [hqk, if_false, List.mem_cons, List.mem_singleton, List.not_mem_nil,
          or_false] at h1
        omega
    · have := hmem i h2
      omega
  · by_cases hqk : q = k - 1
    · simp [hqk]; omega
    · simp [hqk]; omega

/-- C18: over a full traversal of a sequence `S` of `n` elements (for the window cursor
the construction and the `n - k` calls of `operator++` that reach the last window, for
the stack cursor the `n` calls that consume every element), each position is appended to
the container at most once and removed from it at most once, every removed position was
appended, and removals are at most insertions, which are at most `n`. -/
theorem traversal_linear_work [LT α] [DecidableRel (fun a b : α => a < b)] (S : List α)
    (d : α) (k : Nat) (comp comp2 : α → α → Bool) (hk : 1 ≤ k) (hkn : k ≤ S.length) :
    ((queue_pushed_positions (vec S d) k comp (S.length - k)).Nodup ∧
      (queue_erased_positions (vec S d) k comp (S.length - k)).Nodup ∧
      (∀ i ∈ queue_pushed_positions (vec S d) k comp (S.length - k),
        0 ≤ i ∧ i < (S.length : Int)) ∧
      (∀ i ∈ queue_erased_positions (vec S d) k comp (S.length - k),
        i ∈ queue_pushed_positions (vec S d) k comp (S.length - k)) ∧
      (queue_erased_positions (vec S d) k comp (S.length - k)).length
        ≤ (queue_pushed_positions (vec S d) k comp (S.length - k)).length ∧
      (queue_pushed_positions (vec S d) k comp (S.length - k)).length ≤ S.length) ∧
    ((stack_pushed_positions (vec S d) comp2 S.length).Nodup ∧
      (stack_popped_positions (vec S d) comp2 S.length).Nodup ∧
      (∀ i ∈ stack_pushed_positions (vec S d) comp2 S.length,
        0 ≤ i ∧ i < (S.length : Int)) ∧
      (∀ i ∈ stack_popped_positions (vec S d) comp2 S.length,
        i ∈ stack_pushed_positions (vec S d) comp2 S.length) ∧
      (stack_popped_positions (vec S d) comp2 S.length).length
        ≤ (stack_pushed_positions (vec S d) comp2 S.length).length ∧
      (stack_pushed_positions (vec S d) comp2 S.length).length ≤ S.length) := by
  constructor
  · obtain ⟨hnd, hbound, hlen⟩ :=
      queue_pushed_positions_nodup (vec S d) k comp hk (S.length - k)
    obtain ⟨-, hperm⟩ := queue_log_invariant (vec S d) k comp hk (S.length - k)
    obtain ⟨h1, h2, h3⟩ := removed_of_perm _ _ _ hperm hnd
    have hsum : k + (S.length - k) = S.length := by omega
    rw [hsum] at hbound hlen
    exact ⟨hnd, h1, hbound, h2, h3, hlen⟩
  · obtain ⟨hpush, hperm⟩ := stack_log_invariant (vec S d) comp2 S.length
    have hnd : (stack_pushed_positions (vec S d) comp2 S.length).Nodup := by
      rw [hpush]
      refine (List.nodup_range S.length).map ?_
      intro a b hab
      have : (a : Int) = (b : Int) := hab
      omega
    obtain ⟨h1, h2, h3⟩ := removed_of_perm _ _ _ hperm hnd
    refine ⟨hnd, h1, ?_, h2, h3, ?_⟩
    · intro i hi
      rw [hpush] at hi
      simp only [List.mem_map, List.mem_range] at hi
      obtain ⟨j, hj, rfl⟩ := hi
      exact ⟨by omega, by omega⟩
    · rw [hpush]; simp

/-- Witness of C18 on the vector of `monotonic_queue_test`, window size 4, the window
cursor under the decreasing and the stack cursor under the increasing comparator:
removals are at most insertions, which are at most 11. -/
theorem traversal_linear_work_witness :
    (1 ≤ 4 ∧ 4 ≤ monotonic_queue_test_vec.length) ∧
      (queue_erased_positions (vec monotonic_queue_test_vec 0) 4 monotonic_decreasing
          (monotonic_queue_test_vec.length - 4)).length
        ≤ (queue_pushed_positions (vec monotonic_queue_test_vec 0) 4 monotonic_decreasing
          (monotonic_queue_test_vec.length - 4)).length ∧
      (queue_pushed_positions (vec monotonic_queue_test_vec 0) 4 monotonic_decreasing
          (monotonic_queue_test_vec.length - 4)).length ≤ monotonic_queue_test_vec.length ∧
      (stack_popped_positions (vec monotonic_queue_test_vec 0) monotonic_increasing
          monotonic_queue_test_vec.length).Nodup :=
  ⟨by decide,
    (traversal_linear_work monotonic_queue_test_vec 0 4 monotonic_decreasing
      monotonic_increasing (by decide) (by decide)).1.2.2.2.2.1,
    (traversal_linear_work monotonic_queue_test_vec 0 4 monotonic_decreasing
      monotonic_increasing (by decide) (by decide)).1.2.2.2.2.2,
    (traversal_linear_work monotonic_queue_test_vec 0 4 monotonic_decreasing
      monotonic_increasing (by decide) (by decide)).2.2.1⟩

end MonotonicIterator
